import Mathlib

/-!
Verification development for the FortuneBlock block-template assembly engine.

The definitions below are a shallow embedding of the block-assembly code
(`miner.cpp`: `BlockAssembler::TestPackage`, `addPackageTxs`,
`UpdatePackagesForAdded`, `SortForBlock`, the coinbase construction in
`CreateNewBlock`) and of the fortune-payment code (`FortunePayment.cpp`:
`getFortunePaymentAmount`, `GetFortuneAddressByHeight`, `FillFortunePayment`,
`IsBlockPayeeValid`).

Modelling conventions:
  * `CAmount` (int64) is modelled as `Int`; `uint64_t` size/sigop counters are
    modelled as `Int` as well.  Under the mempool-coherence assumptions stated
    below all these quantities stay far inside the machine ranges, so the
    wrap-around of the machine types never fires and exact integer arithmetic
    is the faithful semantics.
  * Base58 addresses and scripts are abstracted to atoms (`Nat`); the external
    codec `DecodeDestination` / `GetScriptForDestination` is an abstract map
    `scriptOf`, and `IsValidDestination` an abstract predicate.  Claims only
    ever compare these values for equality.
  * C++ truncating integer division is `Int.tdiv`.
-/

namespace FortuneBlock

/-! ## Fortune payment (FortunePayment.cpp) -/

/-- Abstract base58 address (atoms; string contents are never inspected). -/
abbrev Addr := Nat

/-- Abstract output script (atoms). -/
abbrev Script := Nat

/-- Abstract external address codec: `GetScriptForDestination ∘ DecodeDestination`
and `IsValidDestination` (key_io / script/standard, external collaborators). -/
structure AddrCodec where
  scriptOf : Addr → Script
  isValidDest : Addr → Bool

/-- Atom standing for the literal `DEFAULT_FORTUNE_ADDRESS =
"FkqwU8tUU6U41PuGTPUqy93hML4QtCDPDX"` of fortune_payment.h. -/
def DEFAULT_FORTUNE_ADDRESS : Addr := 0

/-- C `INT_MAX`, the sentinel bound of the terminal reward range. -/
def INT_MAX : Int := 2147483647

/-- Entry of the fortune reward schedule (fortune_payment.h). -/
structure FortuneRewardStructure where
  blockHeight : Int
  rewardPercentage : Int
deriving DecidableEq, Repr

/-- Configuration of `FortunePayment` (fortune_payment.h): the reward schedule
and its start block.  The `fortuneAddress` member is recomputed by
`GetFortuneAddressByHeight` before every use modelled here, so it is not part
of the configuration. -/
structure FortunePaymentCfg where
  startBlock : Int
  rewardStructures : List FortuneRewardStructure
deriving DecidableEq, Repr

/-- Scan of `rewardStructures` in `FortunePayment::getFortunePaymentAmount`:
the first entry with `blockHeight == INT_MAX || height <= blockHeight` wins. -/
def firstMatchingPercentage (blockHeight : Int) : List FortuneRewardStructure → Option Int
  | [] => none
  | r :: rs =>
    if r.blockHeight = INT_MAX ∨ blockHeight ≤ r.blockHeight then some r.rewardPercentage
    else firstMatchingPercentage blockHeight rs

/-- `FortunePayment::getFortunePaymentAmount` (FortunePayment.cpp): zero at or
before the start block, otherwise `blockReward * pct / 100` for the first
matching schedule range (C++ truncating division). -/
def getFortunePaymentAmount (fp : FortunePaymentCfg) (blockHeight blockReward : Int) : Int :=
  if blockHeight ≤ fp.startBlock then 0
  else
    match firstMatchingPercentage blockHeight fp.rewardStructures with
    | some pct => Int.tdiv (blockReward * pct) 100
    | none => 0

/-- Data of one historical block index entry, as read by
`GetFortuneAddressByHeight`: the four 64-bit words of the block hash
(`GetBlockHash().GetUint64(0..3)`) and the stored `nHeight` field. -/
structure BlockInfo where
  hashWord0 : Nat
  hashWord1 : Nat
  hashWord2 : Nat
  hashWord3 : Nat
  nHeight : Int
deriving DecidableEq, Repr

/-- Abstract view of the active chain consumed by the fortune-payment code:
`ChainActive().Height()`, `ChainActive()[h]`, and the external
`GetBlockCoinbaseMinerAddress` lookup. -/
structure ChainView where
  tipHeight : Int
  blockAt : Int → Option BlockInfo
  minerAddressAt : Int → Addr

/-- `FortunePayment::GetFortuneAddressByHeight` (FortunePayment.cpp, first
version): out-of-range heights and missing block indexes yield the default
address; otherwise the payee is the coinbase miner address of the block at
`luckyHeight = (hash.word0 ^ hash.word1 ^ hash.word2 ^ hash.word3) mod
(looked-up block's own nHeight field)`. -/
def GetFortuneAddressByHeight (ch : ChainView) (blockHeight : Int) : Addr :=
  if blockHeight ≤ 0 ∨ blockHeight > ch.tipHeight then DEFAULT_FORTUNE_ADDRESS
  else
    match ch.blockAt blockHeight with
    | none => DEFAULT_FORTUNE_ADDRESS
    | some b =>
      let luckyHeight : Int :=
        Int.ofNat ((b.hashWord0 ^^^ b.hashWord1 ^^^ b.hashWord2 ^^^ b.hashWord3) % b.nHeight.toNat)
      ch.minerAddressAt luckyHeight

/-- A transaction output (`CTxOut`): value and script. -/
structure CTxOut where
  nValue : Int
  scriptPubKey : Script
deriving DecidableEq, Repr

/-- Failure modes of coinbase assembly that are modelled: the
`JSONRPCError` throw of `FillFortunePayment` and the final
`TestBlockValidity` throw of `CreateNewBlock`. -/
inductive BuildError
  | invalidFortuneAddress
  | testBlockValidityFailed
deriving DecidableEq, Repr

/-- In-place `txNew.vout[0].nValue -= a` on an output list. -/
def decHead : List CTxOut → Int → List CTxOut
  | [], _ => []
  | o :: os, a => { o with nValue := o.nValue - a } :: os

/-- `FortunePayment::FillFortunePayment` (FortunePayment.cpp, first version):
computes the payment amount and payee address at `nBlockHeight - 1`, throws on
an invalid payee address, then subtracts the amount from `vout[0]` and appends
the fortune output.  Returns the new output list and `txoutFortuneRet`. -/
def FillFortunePayment (codec : AddrCodec) (ch : ChainView) (fp : FortunePaymentCfg)
    (vout : List CTxOut) (nBlockHeight blockReward : Int) :
    Except BuildError (List CTxOut × CTxOut) :=
  let fortunePayment := getFortunePaymentAmount fp (nBlockHeight - 1) blockReward
  let fortuneAddress := GetFortuneAddressByHeight ch (nBlockHeight - 1)
  if codec.isValidDest fortuneAddress then
    let payee := codec.scriptOf fortuneAddress
    let txoutFortuneRet : CTxOut := ⟨fortunePayment, payee⟩
    Except.ok (decHead vout fortunePayment ++ [txoutFortuneRet], txoutFortuneRet)
  else Except.error BuildError.invalidFortuneAddress

/-- `FortunePayment::IsBlockPayeeValid` (FortunePayment.cpp, first version):
recomputes the payee address for `height`, then accepts iff some output pays
that script at least `getFortunePaymentAmount height blockReward`. -/
def IsBlockPayeeValid (codec : AddrCodec) (ch : ChainView) (fp : FortunePaymentCfg)
    (vout : List CTxOut) (height blockReward : Int) : Bool :=
  let payee := codec.scriptOf (GetFortuneAddressByHeight ch height)
  let fortuneReward := getFortunePaymentAmount fp height blockReward
  vout.any (fun out => out.scriptPubKey == payee && decide (fortuneReward ≤ out.nValue))

/-- Sum of the `nValue` fields of an output list. -/
def sumValues (l : List CTxOut) : Int := (l.map (·.nValue)).sum

/-- Environment of the coinbase construction in `CreateNewBlock` that comes
from external collaborators: the block subsidy
(`GetBlockSubsidy(pindexPrev->nBits, pindexPrev->nHeight, params)`), the
outputs appended by `FillBlockPayments` (smartnode/superblock payments,
external), and the hard-coded `swapAddresses` table (whose ~1000 concrete
entries are abstracted here as an address/amount list; the source computes the
amounts with double-precision literals, which we take as given integers). -/
structure CoinbaseEnv where
  subsidy : Int
  smartnodeOuts : List CTxOut
  swapTable : List (Addr × Int)

/-- Coinbase output construction of `BlockAssembler::CreateNewBlock`
(miner.cpp): at `nHeight == 1` one output per `swapAddresses` entry, otherwise
a single miner output carrying `nFees + subsidy + nSpecialTxFees`; then
`FillBlockPayments` (modelled from the spec: the external component appends
its outputs and reduces the remainder output 0 by their total) and
`FillFortunePayment` are applied, and finally the template is checked by
`TestBlockValidity` (modelled from the spec: a block whose coinbase has a
negative output fails consensus validation, which `CreateNewBlock` turns into
a thrown error). -/
def CreateNewBlockCoinbase (codec : AddrCodec) (ch : ChainView) (fp : FortunePaymentCfg)
    (env : CoinbaseEnv) (nHeight nFees nSpecialTxFees : Int) (scriptPubKeyIn : Script) :
    Except BuildError (List CTxOut) :=
  let normalBlockReward := nFees + env.subsidy
  let blockRewardWithSpecialtx := normalBlockReward + nSpecialTxFees
  let vout0 : List CTxOut :=
    if nHeight = 1 then env.swapTable.map (fun r => ⟨r.2, codec.scriptOf r.1⟩)
    else [⟨blockRewardWithSpecialtx, scriptPubKeyIn⟩]
  let vout1 := decHead vout0 (sumValues env.smartnodeOuts) ++ env.smartnodeOuts
  match FillFortunePayment codec ch fp vout1 nHeight normalBlockReward with
  | Except.error e => Except.error e
  | Except.ok (vout2, _) =>
    if vout2.all (fun o => decide (0 ≤ o.nValue)) then Except.ok vout2
    else Except.error BuildError.testBlockValidityFailed

/-! ## Concrete instances used by witnesses and counterexamples -/

/-- Identity codec: scripts are the addresses themselves, every address valid. -/
def codecId : AddrCodec := ⟨fun a => a, fun _ => true⟩

/-- Trivial chain: empty, tip height 0, miner address 7 everywhere. -/
def chTrivial : ChainView := ⟨0, fun _ => none, fun _ => 7⟩

/-- Mainnet fortune schedule shape (chainparams.cpp): a single unbounded range
paying 5 percent, start block 0. -/
def fp0 : FortunePaymentCfg := ⟨0, [⟨INT_MAX, 5⟩]⟩

/-- Small coinbase environment: subsidy 100, no smartnode outputs, a two-entry
swap table. -/
def env0 : CoinbaseEnv := ⟨100, [], [(11, 5), (12, 7)]⟩

/-! ## Claims C7 to C10 -/

/-- Claim C9: the lucky payee of `FillFortunePayment` at height `H` is derived
from `effectiveHeight = H - 1`: the fortune output pays the script of
`GetFortuneAddressByHeight (H - 1)`; outside `[1, tipHeight]` that address is
the fixed default, and otherwise it is the coinbase miner address of the block
at `(hashWord0 xor hashWord1 xor hashWord2 xor hashWord3) mod (the looked-up
block's own stored nHeight field)`. -/
theorem claim_C9 (codec : AddrCodec) (ch : ChainView) (fp : FortunePaymentCfg)
    (vout : List CTxOut) (H reward : Int) (vout' : List CTxOut) (txout : CTxOut)
    (b : BlockInfo)
    (hok : FillFortunePayment codec ch fp vout H reward = Except.ok (vout', txout)) :
    txout.scriptPubKey = codec.scriptOf (GetFortuneAddressByHeight ch (H - 1))
    ∧ ((H - 1 < 1 ∨ H - 1 > ch.tipHeight) →
        GetFortuneAddressByHeight ch (H - 1) = DEFAULT_FORTUNE_ADDRESS)
    ∧ (1 ≤ H - 1 → H - 1 ≤ ch.tipHeight → ch.blockAt (H - 1) = some b →
        GetFortuneAddressByHeight ch (H - 1) =
          ch.minerAddressAt (Int.ofNat
            ((b.hashWord0 ^^^ b.hashWord1 ^^^ b.hashWord2 ^^^ b.hashWord3) % b.nHeight.toNat))) := by
  refine ⟨?_, ?_, ?_⟩
  · simp only [FillFortunePayment] at hok
    split at hok
    · have hpair := Except.ok.inj hok
      have h2 : txout = ⟨getFortunePaymentAmount fp (H - 1) reward,
          codec.scriptOf (GetFortuneAddressByHeight ch (H - 1))⟩ :=
        (congrArg Prod.snd hpair).symm
      rw [h2]
    · exact absurd hok (by simp)
  · intro hout
    simp only [GetFortuneAddressByHeight]
    rw [if_pos]
    omega
  · intro h1 h2 hb
    simp only [GetFortuneAddressByHeight]
    rw [if_neg (by omega), hb]

/-- Concrete chain for the claim C9 witness: tip height 5, block 3 has hash
words 13, 6, 1, 0 and stored height 3, miner addresses are 100 + height. -/
def ch9 : ChainView :=
  ⟨5, fun h => if h = 3 then some ⟨13, 6, 1, 0, 3⟩ else none, fun i => 100 + i.toNat⟩

/-- Witness for claim C9 at concrete inputs: block 3's hash words xor to 10,
10 mod 3 = 1, so filling the payment for block height 4 pays miner address
101 of lucky block 1. -/
theorem claim_C9_witness :
    (⟨5, 101⟩ : CTxOut).scriptPubKey = codecId.scriptOf (GetFortuneAddressByHeight ch9 (4 - 1))
    ∧ GetFortuneAddressByHeight ch9 (4 - 1) =
      ch9.minerAddressAt (Int.ofNat ((13 ^^^ 6 ^^^ 1 ^^^ 0) % (3 : Int).toNat)) := by
  have h := claim_C9 codecId ch9 fp0 [⟨50, 9⟩] 4 100 [⟨45, 9⟩, ⟨5, 101⟩] ⟨5, 101⟩
    ⟨13, 6, 1, 0, 3⟩ (by rfl)
  exact ⟨h.1, h.2.2 (by decide) (by decide) (by rfl)⟩

/-- Claim C10: `IsBlockPayeeValid tx height blockReward` returns true iff some
output pays the expected fortune payee script at least the expected fortune
payment for that height; over-payment is accepted, and when the expected
payment is zero (height at or before the start block) any output to the payee,
including a zero-value one, suffices. -/
theorem claim_C10 (codec : AddrCodec) (ch : ChainView) (fp : FortunePaymentCfg)
    (vout : List CTxOut) (height blockReward : Int) :
    (IsBlockPayeeValid codec ch fp vout height blockReward = true ↔
      ∃ out ∈ vout, out.scriptPubKey = codec.scriptOf (GetFortuneAddressByHeight ch height)
        ∧ getFortunePaymentAmount fp height blockReward ≤ out.nValue)
    ∧ (height ≤ fp.startBlock → ∀ out ∈ vout,
        out.scriptPubKey = codec.scriptOf (GetFortuneAddressByHeight ch height) →
        0 ≤ out.nValue →
        IsBlockPayeeValid codec ch fp vout height blockReward = true) := by
  constructor
  · simp [IsBlockPayeeValid, List.any_eq_true]
  · intro hsb out hmem hscript hval
    simp only [IsBlockPayeeValid, List.any_eq_true]
    refine ⟨out, hmem, ?_⟩
    have hz : getFortunePaymentAmount fp height blockReward = 0 := by
      simp [getFortunePaymentAmount, hsb]
    simp [hscript, hz, hval]

/-- Witness for claim C10: with the mainnet-shaped schedule starting at block 0
and a transaction holding a zero-value output to the default fortune address,
validation at height 0 succeeds. -/
theorem claim_C10_witness :
    IsBlockPayeeValid codecId chTrivial fp0 [⟨0, 0⟩] 0 500 = true := by
  exact (claim_C10 codecId chTrivial fp0 [⟨0, 0⟩] 0 500).2 (by decide)
    ⟨0, 0⟩ (by decide) (by decide) (by decide)

/-- Claim C7: at a non-genesis height, a successfully assembled coinbase
conserves the reward exactly (`sum of outputs = subsidy + ordinaryFees +
specialFees`), every output of a produced template, in particular the
remainder output 0, is nonnegative, and if the layered sub-payments subtract
more than the total, assembly fails with an error rather than silently
producing a template. -/
theorem claim_C7 (codec : AddrCodec) (ch : ChainView) (fp : FortunePaymentCfg)
    (env : CoinbaseEnv) (nHeight nFees nSpecialTxFees : Int) (scriptPubKeyIn : Script)
    (outs : List CTxOut) (hne : nHeight ≠ 1) :
    (CreateNewBlockCoinbase codec ch fp env nHeight nFees nSpecialTxFees scriptPubKeyIn =
        Except.ok outs →
      sumValues outs = env.subsidy + nFees + nSpecialTxFees)
    ∧ (CreateNewBlockCoinbase codec ch fp env nHeight nFees nSpecialTxFees scriptPubKeyIn =
        Except.ok outs →
      ∀ o ∈ outs, 0 ≤ o.nValue)
    ∧ (nFees + env.subsidy + nSpecialTxFees <
        sumValues env.smartnodeOuts +
          getFortunePaymentAmount fp (nHeight - 1) (nFees + env.subsidy) →
      ∃ e, CreateNewBlockCoinbase codec ch fp env nHeight nFees nSpecialTxFees scriptPubKeyIn =
        Except.error e) := by
  simp only [CreateNewBlockCoinbase, if_neg hne]
  have hv1 : decHead [(⟨nFees + env.subsidy + nSpecialTxFees, scriptPubKeyIn⟩ : CTxOut)]
      (sumValues env.smartnodeOuts) ++ env.smartnodeOuts =
      ⟨nFees + env.subsidy + nSpecialTxFees - sumValues env.smartnodeOuts, scriptPubKeyIn⟩ ::
        env.smartnodeOuts := by
    simp [decHead]
  rw [hv1]
  split
  next e heq =>
    exact ⟨fun h => absurd h (by simp), fun h => absurd h (by simp), fun _ => ⟨e, rfl⟩⟩
  next vout2 snd heq =>
    simp only [FillFortunePayment] at heq
    split at heq
    next hvalid =>
      have hpair := Except.ok.inj heq
      cases hpair
      simp only [decHead]
      split
      next hall =>
        refine ⟨?_, ?_, ?_⟩
        · intro hok
          have houts := (Except.ok.inj hok).symm
          subst houts
          simp [sumValues, List.sum_append, List.sum_map_add]
          ring
        · intro hok
          have houts := (Except.ok.inj hok).symm
          subst houts
          intro o ho
          have := List.all_eq_true.mp hall o ho
          simpa using this
        · intro hover
          exfalso
          have hhead := List.all_eq_true.mp hall
            ⟨nFees + env.subsidy + nSpecialTxFees - sumValues env.smartnodeOuts -
              getFortunePaymentAmount fp (nHeight - 1) (nFees + env.subsidy), scriptPubKeyIn⟩
            (by simp [decHead])
          simp at hhead
          omega
      next =>
        exact ⟨fun h => absurd h (by simp), fun h => absurd h (by simp),
          fun _ => ⟨BuildError.testBlockValidityFailed, rfl⟩⟩
    next =>
      exact absurd heq (by simp)

/-- Witness for claim C7 at height 2 with subsidy 100, fees 10, special fees 3:
conservation, nonnegativity of the produced outputs, and the loud-failure case
at an over-subtracting configuration (fortune percentage 200). -/
theorem claim_C7_witness :
    (sumValues [⟨108, 9⟩, ⟨5, 0⟩] = (100 : Int) + 10 + 3)
    ∧ (∀ o ∈ ([⟨108, 9⟩, ⟨5, 0⟩] : List CTxOut), 0 ≤ o.nValue)
    ∧ (∃ e, CreateNewBlockCoinbase codecId chTrivial ⟨0, [⟨INT_MAX, 200⟩]⟩ env0 2 10 3 9 =
        Except.error e) := by
  refine ⟨?_, ?_, ?_⟩
  · exact (claim_C7 codecId chTrivial fp0 env0 2 10 3 9 [⟨108, 9⟩, ⟨5, 0⟩]
      (by decide)).1 (by rfl)
  · exact (claim_C7 codecId chTrivial fp0 env0 2 10 3 9 [⟨108, 9⟩, ⟨5, 0⟩]
      (by decide)).2.1 (by rfl)
  · exact (claim_C7 codecId chTrivial ⟨0, [⟨INT_MAX, 200⟩]⟩ env0 2 10 3 9 []
      (by decide)).2.2 (by decide)

/-- Counterexample to claim C8 as stated: at height 1 the coinbase is not
exactly the swap-table outputs — `FillFortunePayment` still runs and appends a
zero-value fortune output to the default address (the third output below). -/
theorem claim_C8_counterexample :
    CreateNewBlockCoinbase codecId chTrivial fp0 env0 1 0 0 9 =
      Except.ok [⟨5, 11⟩, ⟨7, 12⟩, ⟨0, 0⟩]
    ∧ ([⟨5, 11⟩, ⟨7, 12⟩, ⟨0, 0⟩] : List CTxOut) ≠
        env0.swapTable.map (fun r => ⟨r.2, codecId.scriptOf r.1⟩) := by
  exact ⟨by rfl, by decide⟩

/-- Claim C8 as amended: at the hard-coded first block height (height 1) the
coinbase outputs are exactly the swap-table entries followed by one
zero-value lucky-payment output to the default fortune address (appended by
`FillFortunePayment`, which runs at every height); no subsidy, fee, or miner
reward output is added, assuming the external `FillBlockPayments` appends
nothing and the schedule's start block is nonnegative. -/
theorem claim_C8_amended (codec : AddrCodec) (ch : ChainView) (fp : FortunePaymentCfg)
    (env : CoinbaseEnv) (nFees nSpecialTxFees : Int) (scriptPubKeyIn : Script)
    (hsm : env.smartnodeOuts = [])
    (hsb : 0 ≤ fp.startBlock)
    (hvalid : codec.isValidDest DEFAULT_FORTUNE_ADDRESS = true)
    (hamts : ∀ r ∈ env.swapTable, 0 ≤ r.2) :
    CreateNewBlockCoinbase codec ch fp env 1 nFees nSpecialTxFees scriptPubKeyIn =
      Except.ok ((env.swapTable.map (fun r => ⟨r.2, codec.scriptOf r.1⟩)) ++
        [⟨0, codec.scriptOf DEFAULT_FORTUNE_ADDRESS⟩]) := by
  have hzero : getFortunePaymentAmount fp 0 (nFees + env.subsidy) = 0 := by
    simp [getFortunePaymentAmount, hsb]
  have haddr : GetFortuneAddressByHeight ch 0 = DEFAULT_FORTUNE_ADDRESS := by
    simp [GetFortuneAddressByHeight]
  have hdec0 : ∀ l : List CTxOut, decHead l 0 = l := by
    intro l
    cases l with
    | nil => rfl
    | cons o os => simp [decHead]
  have hfill : FillFortunePayment codec ch fp
      (env.swapTable.map (fun r => (⟨r.2, codec.scriptOf r.1⟩ : CTxOut))) 1 (nFees + env.subsidy) =
      Except.ok (env.swapTable.map (fun r => (⟨r.2, codec.scriptOf r.1⟩ : CTxOut)) ++
          [⟨0, codec.scriptOf DEFAULT_FORTUNE_ADDRESS⟩],
        ⟨0, codec.scriptOf DEFAULT_FORTUNE_ADDRESS⟩) := by
    simp only [FillFortunePayment]
    rw [show (1 : Int) - 1 = 0 from by norm_num, hzero, haddr, if_pos hvalid, hdec0]
  simp only [CreateNewBlockCoinbase, hsm]
  norm_num [sumValues, List.map_nil, List.sum_nil, List.append_nil]
  rw [hdec0, hfill]
  simp
  rintro x (⟨a, b, hab, rfl⟩ | rfl)
  · simpa using hamts (a, b) hab
  · simp

/-- Witness for the amended claim C8 at the concrete environment `env0`. -/
theorem claim_C8_witness :
    CreateNewBlockCoinbase codecId chTrivial fp0 env0 1 0 0 9 =
      Except.ok ((env0.swapTable.map (fun r => ⟨r.2, codecId.scriptOf r.1⟩)) ++
        [⟨0, codecId.scriptOf DEFAULT_FORTUNE_ADDRESS⟩]) := by
  exact claim_C8_amended codecId chTrivial fp0 env0 0 0 9 (by rfl) (by decide) (by rfl)
    (by decide)

/-! ## Mempool model (the contract of CTxMemPool consumed by BlockAssembler)

A mempool entry carries the per-transaction data read by the selection loop:
isolated size / sigops / fee / modified fee / special fee, the in-pool
ancestor and descendant sets (the contract of `CalculateMemPoolAncestors`
with unlimited limits and of `CalculateDescendants`, both external to the
sources provided), and the cached ancestor aggregates
(`GetSizeWithAncestors`, `GetModFeesWithAncestors`,
`GetSigOpCountWithAncestors`, `GetCountWithAncestors`).  Transaction handles
(`txiter`) are atoms (`Nat`). -/

structure MemEntry where
  txSize : Int
  sigOps : Int
  fee : Int
  modFee : Int
  specialFee : Int
  ancestors : List Nat
  descendants : List Nat
  sizeWithAncestors : Int
  modFeesWithAncestors : Int
  sigOpCountWithAncestors : Int
  countWithAncestors : Int
deriving DecidableEq, Repr

/-- A mempool is a finite association of transaction handles to entries. -/
abbrev MemPool := List (Nat × MemEntry)

/-- Handles present in the pool. -/
def mpKeys (mp : MemPool) : List Nat := mp.map Prod.fst

/-- Entry lookup (`txiter` dereference). -/
def lookupEntry (mp : MemPool) (t : Nat) : Option MemEntry := List.lookup t mp

/-- `GetTxSize` of a handle (0 for a dangling handle, which never occurs in a
run over a coherent pool). -/
def txSizeOf (mp : MemPool) (t : Nat) : Int := ((lookupEntry mp t).map (·.txSize)).getD 0

/-- `GetSigOpCount` of a handle. -/
def sigOpsOf (mp : MemPool) (t : Nat) : Int := ((lookupEntry mp t).map (·.sigOps)).getD 0

/-- `GetFee` of a handle. -/
def feeOf (mp : MemPool) (t : Nat) : Int := ((lookupEntry mp t).map (·.fee)).getD 0

/-- `GetModifiedFee` of a handle. -/
def modFeeOf (mp : MemPool) (t : Nat) : Int := ((lookupEntry mp t).map (·.modFee)).getD 0

/-- `GetSpecialTxFee` of a handle. -/
def specialFeeOf (mp : MemPool) (t : Nat) : Int := ((lookupEntry mp t).map (·.specialFee)).getD 0

/-- In-pool ancestor set of a handle. -/
def ancListOf (mp : MemPool) (t : Nat) : List Nat := ((lookupEntry mp t).map (·.ancestors)).getD []

/-- In-pool descendant set of a handle (`CalculateDescendants`). -/
def descListOf (mp : MemPool) (t : Nat) : List Nat := ((lookupEntry mp t).map (·.descendants)).getD []

/-- `GetSizeWithAncestors` of a handle. -/
def aggSizeOf (mp : MemPool) (t : Nat) : Int := ((lookupEntry mp t).map (·.sizeWithAncestors)).getD 0

/-- `GetModFeesWithAncestors` of a handle. -/
def aggFeesOf (mp : MemPool) (t : Nat) : Int := ((lookupEntry mp t).map (·.modFeesWithAncestors)).getD 0

/-- `GetSigOpCountWithAncestors` of a handle. -/
def aggSigOpsOf (mp : MemPool) (t : Nat) : Int := ((lookupEntry mp t).map (·.sigOpCountWithAncestors)).getD 0

/-- `GetCountWithAncestors` of a handle. -/
def countOf (mp : MemPool) (t : Nat) : Int := ((lookupEntry mp t).map (·.countWithAncestors)).getD 0

/-- Sum of isolated sizes over a handle list. -/
def sumTxSize (mp : MemPool) (l : List Nat) : Int := (l.map (txSizeOf mp)).sum

/-- Sum of isolated sigop counts over a handle list. -/
def sumSigOps (mp : MemPool) (l : List Nat) : Int := (l.map (sigOpsOf mp)).sum

/-! ## Modified-package tracker (mapModifiedTx) -/

/-- Working copy of a transaction's ancestor aggregates
(`CTxMemPoolModifiedEntry` of miner.h). -/
structure CTxMemPoolModifiedEntry where
  nSizeWithAncestors : Int
  nModFeesWithAncestors : Int
  nSigOpCountWithAncestors : Int
deriving DecidableEq, Repr

/-- The tracker: a finite association of handles to modified entries (keyed by
`iter`, like the `indexed_modified_transaction_set`). -/
abbrev ModMap := List (Nat × CTxMemPoolModifiedEntry)

/-- Modelled from the spec (the `CTxMemPoolModifiedEntry(iter)` constructor of
miner.h is not among the provided sources): a fresh tracker entry starts from
the transaction's cached ancestor aggregates. -/
def modEntryOf (mp : MemPool) (t : Nat) : CTxMemPoolModifiedEntry :=
  ⟨aggSizeOf mp t, aggFeesOf mp t, aggSigOpsOf mp t⟩

/-- Modelled from the spec (the `update_for_parent_inclusion` functor of
miner.h is not among the provided sources): subtract the committed parent's
isolated size, modified fee and sigop count from the entry. -/
def update_for_parent_inclusion (mp : MemPool) (it : Nat)
    (e : CTxMemPoolModifiedEntry) : CTxMemPoolModifiedEntry :=
  ⟨e.nSizeWithAncestors - txSizeOf mp it,
   e.nModFeesWithAncestors - modFeeOf mp it,
   e.nSigOpCountWithAncestors - sigOpsOf mp it⟩

/-- In-place `mapModifiedTx.modify(mit, ...)`: replace the value at key `k`. -/
def mapReplace (k : Nat) (v : CTxMemPoolModifiedEntry) (m : ModMap) : ModMap :=
  m.map (fun p => if p.1 = k then (k, v) else p)

/-- Inner loop of `BlockAssembler::UpdatePackagesForAdded` for one committed
transaction `it`: walk its descendants, skip those in `alreadyAdded` (`S`),
and for the rest create or adjust the tracker entry, counting each touch. -/
def updInner (mp : MemPool) (S : List Nat) (it : Nat) : List Nat → Nat × ModMap → Nat × ModMap
  | [], acc => acc
  | d :: ds, (n, mm) =>
    if S.contains d then updInner mp S it ds (n, mm)
    else
      match List.lookup d mm with
      | none => updInner mp S it ds (n + 1, (d, update_for_parent_inclusion mp it (modEntryOf mp d)) :: mm)
      | some me => updInner mp S it ds (n + 1, mapReplace d (update_for_parent_inclusion mp it me) mm)

/-- Outer loop of `UpdatePackagesForAdded` over the committed set. -/
def updOuter (mp : MemPool) (S : List Nat) : List Nat → Nat × ModMap → Nat × ModMap
  | [], acc => acc
  | it :: its, acc => updOuter mp S its (updInner mp S it (descListOf mp it) acc)

/-- `BlockAssembler::UpdatePackagesForAdded` (miner.cpp): returns the number of
descendants touched and the adjusted tracker. -/
def UpdatePackagesForAdded (mp : MemPool) (alreadyAdded : List Nat) (m : ModMap) : Nat × ModMap :=
  updOuter mp alreadyAdded alreadyAdded (0, m)

/-! ## Block assembler state and the selection loop (addPackageTxs) -/

/-- Static parameters of one assembly pass: `nBlockMaxSize`,
`MaxBlockSigOps(fDIP0001ActiveAtTip)`, the minimum relay fee rate
(`blockMinFeeRate`, whose `GetFee` is modelled from the spec as
`rate * size`), and the external finality/safety oracles `IsFinalTx` and
`chainLocksHandler->IsTxSafeForMining`. -/
structure BAParams where
  nBlockMaxSize : Int
  maxBlockSigOps : Int
  blockMinFeeRate : Int
  isFinal : Nat → Bool
  isSafe : Nat → Bool

/-- Mutable state of `BlockAssembler::addPackageTxs`: the committed list (in
block order), running totals, the tracker, the failed set, the consecutive
failure counter, the unconsumed suffix of the `ancestor_score`-ordered mapTx
iteration, and a ghost record of the last accepted package's tested fee and
size figures (instrumentation only; it never influences control flow). -/
structure BAState where
  blockTxs : List Nat
  nBlockSize : Int
  nBlockSigOps : Int
  nBlockTx : Int
  nFees : Int
  nSpecialTxFees : Int
  mapModifiedTx : ModMap
  failedTx : List Nat
  nConsecutiveFailed : Int
  rest : List Nat
  lastAccepted : Option (Int × Int)
deriving DecidableEq, Repr

/-- `BlockAssembler::TestPackage` (miner.cpp lines 1753-1759): reject when
`nBlockSize + packageSize >= nBlockMaxSize` or
`nBlockSigOps + packageSigOps >= MaxBlockSigOps`. -/
def TestPackage (P : BAParams) (s : BAState) (packageSize packageSigOps : Int) : Bool :=
  if s.nBlockSize + packageSize ≥ P.nBlockMaxSize then false
  else if s.nBlockSigOps + packageSigOps ≥ P.maxBlockSigOps then false
  else true

/-- `BlockAssembler::SkipMapTxEntry`: skip mapTx entries already tracked,
already in the block, or already failed. -/
def SkipMapTxEntry (s : BAState) (it : Nat) : Bool :=
  (List.lookup it s.mapModifiedTx).isSome || s.blockTxs.contains it || s.failedTx.contains it

/-- Modelled from the spec (the comparator
`CompareTxMemPoolEntryByAncestorFee` of txmempool.h is not among the provided
sources): `a` beats `b` iff `a`'s ancestor fee rate is strictly higher,
compared by cross-multiplication (`fa / sa > fb / sb` as `fb * sa < fa * sb`);
on ties neither side beats the other. -/
def ancestorFeeRateGT (fa sa fb sb : Int) : Bool := decide (fb * sa < fa * sb)

/-- Best entry of the tracker under the ancestor-fee-rate order
(`mapModifiedTx.get<ancestor_score>().begin()`): a maximal element, earliest
maximal entry on ties. -/
def bestModified : ModMap → Option (Nat × CTxMemPoolModifiedEntry)
  | [] => none
  | e :: es =>
    match bestModified es with
    | none => some e
    | some b =>
      if ancestorFeeRateGT b.2.nModFeesWithAncestors b.2.nSizeWithAncestors
          e.2.nModFeesWithAncestors e.2.nSizeWithAncestors then some b
      else some e

/-- The package figures carried by the candidate chosen in one iteration:
the handle, whether it came from the tracker, and the size/fee/sigop
aggregates used by the subsequent tests. -/
structure Candidate where
  iter : Nat
  usingMod : Bool
  pkgSize : Int
  pkgFees : Int
  pkgSigOps : Int
deriving DecidableEq, Repr

/-- Candidate built from a mapTx entry's cached aggregates. -/
def cachedCandidate (mp : MemPool) (mi : Nat) : Candidate :=
  ⟨mi, false, aggSizeOf mp mi, aggFeesOf mp mi, aggSigOpsOf mp mi⟩

/-- Candidate built from a tracker entry. -/
def modCandidate (k : Nat) (me : CTxMemPoolModifiedEntry) : Candidate :=
  ⟨k, true, me.nSizeWithAncestors, me.nModFeesWithAncestors, me.nSigOpCountWithAncestors⟩

/-- Outcome of the candidate-selection head of one loop iteration. -/
inductive SelOut
  | finished
  | skipStale (s' : BAState)
  | pick (c : Candidate) (s' : BAState)
deriving DecidableEq, Repr

/-- Candidate selection at the top of one `addPackageTxs` iteration
(miner.cpp lines 1877-1922): stale mapTx entries are skipped (consuming the
iterator), then the best tracker entry is used iff it beats the current mapTx
entry strictly (`CompareTxMemPoolEntryByAncestorFee` on the tracker side
only); otherwise the mapTx entry is used and the iterator advances.  With the
iterator exhausted the tracker's best is used; with both exhausted the loop
finishes. -/
def selectCandidate (mp : MemPool) (s : BAState) : SelOut :=
  match s.rest with
  | mi :: rest' =>
    if SkipMapTxEntry s mi then SelOut.skipStale { s with rest := rest' }
    else
      match bestModified s.mapModifiedTx with
      | some (k, me) =>
        if ancestorFeeRateGT me.nModFeesWithAncestors me.nSizeWithAncestors
            (aggFeesOf mp mi) (aggSizeOf mp mi) then
          SelOut.pick (modCandidate k me) s
        else SelOut.pick (cachedCandidate mp mi) { s with rest := rest' }
      | none => SelOut.pick (cachedCandidate mp mi) { s with rest := rest' }
  | [] =>
    match bestModified s.mapModifiedTx with
    | none => SelOut.finished
    | some (k, me) => SelOut.pick (modCandidate k me) s

/-- `mapModifiedTx.erase` by key. -/
def eraseKey (k : Nat) (m : ModMap) : ModMap := m.filter (fun p => p.1 ≠ k)

/-- The ancestor package of a candidate: `CalculateMemPoolAncestors` with
unlimited limits (the entry's in-pool ancestor set), restricted by
`onlyUnconfirmed` to handles not in the block, plus the candidate itself. -/
def packageOf (mp : MemPool) (s : BAState) (iter : Nat) : List Nat :=
  (ancListOf mp iter).filter (fun a => !s.blockTxs.contains a) ++ [iter]

/-- `BlockAssembler::TestPackageTransactions`: every package member must be
final and safe. -/
def TestPackageTransactions (P : BAParams) (package : List Nat) : Bool :=
  package.all (fun t => P.isFinal t && P.isSafe t)

/-- Ordered insertion under ascending `GetCountWithAncestors`. -/
def insertByCount (mp : MemPool) (a : Nat) : List Nat → List Nat
  | [] => [a]
  | b :: bs => if countOf mp a ≤ countOf mp b then a :: b :: bs else b :: insertByCount mp a bs

/-- `BlockAssembler::SortForBlock` (miner.cpp lines 1836-1845): sort the
package by ascending ancestor count (`CompareTxIterByAncestorCount` of
miner.h, modelled from the spec and the in-source comment as comparison of
`GetCountWithAncestors`; `std::sort` is unstable, so any
count-sorted permutation is a faithful model — insertion sort here). -/
def SortForBlock (mp : MemPool) (package : List Nat) : List Nat :=
  package.foldr (insertByCount mp) []

/-- `BlockAssembler::AddToBlock` (miner.cpp lines 1775-1793): append the
transaction and accumulate size, count, sigops, fees and special fees. -/
def AddToBlock (mp : MemPool) (s : BAState) (t : Nat) : BAState :=
  { s with
    blockTxs := s.blockTxs ++ [t]
    nBlockSize := s.nBlockSize + txSizeOf mp t
    nBlockTx := s.nBlockTx + 1
    nBlockSigOps := s.nBlockSigOps + sigOpsOf mp t
    nFees := s.nFees + feeOf mp t
    nSpecialTxFees := s.nSpecialTxFees + specialFeeOf mp t }

/-- One commit-loop step (miner.cpp lines 1971-1975): `AddToBlock` then erase
the handle from the tracker. -/
def commitOne (mp : MemPool) (s : BAState) (t : Nat) : BAState :=
  { AddToBlock mp s t with mapModifiedTx := eraseKey t s.mapModifiedTx }

/-- Failure bookkeeping (miner.cpp lines 1930-1936 and 1957-1960): a failed
tracker candidate is erased from the tracker and added to the failed set;
mapTx candidates need no bookkeeping. -/
def failBookkeep (s : BAState) (c : Candidate) : BAState :=
  if c.usingMod then
    { s with mapModifiedTx := eraseKey c.iter s.mapModifiedTx, failedTx := c.iter :: s.failedTx }
  else s

/-- Why one assembly pass of the loop ended. -/
inductive ExitKind
  | finished
  | feeCutoff
  | giveUp
  | fuelOut
deriving DecidableEq, Repr

/-- Result of one loop iteration: exit the loop or continue with a new state. -/
inductive StepOut
  | exitLoop (k : ExitKind) (s : BAState)
  | continue1 (s : BAState)
deriving DecidableEq, Repr

/-- One full iteration of the while loop of `BlockAssembler::addPackageTxs`
(miner.cpp lines 1877-1981): select a candidate; return from the whole loop if
its fees fall below `blockMinFeeRate.GetFee(packageSize)` (the hard fee-rate
cutoff); on a capacity failure do the failure bookkeeping, bump the
consecutive-failure counter and give up when over 1000 failures with the
block within 1000 bytes of full; on a finality/safety failure do the failure
bookkeeping only; otherwise commit the package in `SortForBlock` order, reset
the counter, record the accepted figures (ghost) and propagate the ancestor
adjustments with `UpdatePackagesForAdded`. -/
def stepFn (P : BAParams) (mp : MemPool) (s : BAState) : StepOut :=
  match selectCandidate mp s with
  | SelOut.finished => StepOut.exitLoop ExitKind.finished s
  | SelOut.skipStale s' => StepOut.continue1 s'
  | SelOut.pick c s' =>
    if c.pkgFees < P.blockMinFeeRate * c.pkgSize then StepOut.exitLoop ExitKind.feeCutoff s'
    else if TestPackage P s' c.pkgSize c.pkgSigOps then
      let package := packageOf mp s' c.iter
      if TestPackageTransactions P package then
        let sorted := SortForBlock mp package
        let s2 := sorted.foldl (commitOne mp) s'
        let s3 := { s2 with nConsecutiveFailed := 0, lastAccepted := some (c.pkgFees, c.pkgSize) }
        StepOut.continue1 { s3 with mapModifiedTx := (UpdatePackagesForAdded mp package s3.mapModifiedTx).2 }
      else StepOut.continue1 (failBookkeep s' c)
    else
      let s2 := failBookkeep s' c
      let s3 := { s2 with nConsecutiveFailed := s2.nConsecutiveFailed + 1 }
      if 1000 < s3.nConsecutiveFailed ∧ P.nBlockMaxSize - 1000 < s3.nBlockSize then
        StepOut.exitLoop ExitKind.giveUp s3
      else StepOut.continue1 s3

/-- Fuel-indexed run of the while loop.  With fuel 0 the current state is
returned with exit kind `fuelOut`, so `addPackageTxsGo P mp n s0` for varying
`n` enumerates every state the loop passes through. -/
def addPackageTxsGo (P : BAParams) (mp : MemPool) : Nat → BAState → BAState × ExitKind
  | 0, s => (s, ExitKind.fuelOut)
  | fuel + 1, s =>
    match stepFn P mp s with
    | StepOut.exitLoop k s' => (s', k)
    | StepOut.continue1 s' => addPackageTxsGo P mp fuel s'

/-- State at loop entry, per `BlockAssembler::resetBlock`: 1000 bytes and 100
sigops reserved for the coinbase, nothing committed, and the full
`ancestor_score`-ordered mapTx iteration ahead. -/
def initState (order : List Nat) : BAState :=
  { blockTxs := [], nBlockSize := 1000, nBlockSigOps := 100, nBlockTx := 0, nFees := 0,
    nSpecialTxFees := 0, mapModifiedTx := [], failedTx := [], nConsecutiveFailed := 0,
    rest := order, lastAccepted := none }

/-- `BlockAssembler::addPackageTxs`: seed the tracker from the (empty)
pre-committed set, then run the selection loop. -/
def addPackageTxs (P : BAParams) (mp : MemPool) (order : List Nat) (fuel : Nat) :
    BAState × ExitKind :=
  let s0 := initState order
  addPackageTxsGo P mp fuel
    { s0 with mapModifiedTx := (UpdatePackagesForAdded mp s0.blockTxs s0.mapModifiedTx).2 }

/-- Sum of isolated modified fees over a handle list. -/
def sumModFee (mp : MemPool) (l : List Nat) : Int := (l.map (modFeeOf mp)).sum

/-- Keys of a tracker. -/
def modKeys (m : ModMap) : List Nat := m.map Prod.fst

/-- The committed transactions of `S` that have `d` among their in-pool
descendants (exactly the iterations of `UpdatePackagesForAdded` touching `d`). -/
def committedParents (mp : MemPool) (S : List Nat) (d : Nat) : List Nat :=
  S.filter (fun it => (descListOf mp it).contains d)

/-- A tracker entry after subtracting the isolated figures of a handle list. -/
def entryMinus (mp : MemPool) (e : CTxMemPoolModifiedEntry) (l : List Nat) :
    CTxMemPoolModifiedEntry :=
  ⟨e.nSizeWithAncestors - sumTxSize mp l,
   e.nModFeesWithAncestors - sumModFee mp l,
   e.nSigOpCountWithAncestors - sumSigOps mp l⟩

/-- The tracker entry a `UpdatePackagesForAdded` adjustment for `d` starts
from: the existing entry if present, else a fresh one from cached aggregates. -/
def startEntry (mp : MemPool) (m : ModMap) (d : Nat) : CTxMemPoolModifiedEntry :=
  (List.lookup d m).getD (modEntryOf mp d)

/-! ## Association-map lemmas -/

theorem lookup_cons_self {β : Type} (a : Nat) (b : β) (ps : List (Nat × β)) :
    List.lookup a ((a, b) :: ps) = some b := by
  simp [List.lookup]

theorem lookup_cons_ne {β : Type} (p : Nat × β) (ps : List (Nat × β)) (j : Nat)
    (h : j ≠ p.1) : List.lookup j (p :: ps) = List.lookup j ps := by
  rcases p with ⟨a, b⟩
  simp only [List.lookup]
  rw [show (j == a) = false by simpa using h]

theorem mapReplace_cons_self (k : Nat) (v : CTxMemPoolModifiedEntry)
    (p : Nat × CTxMemPoolModifiedEntry) (ps : ModMap) (hp : p.1 = k) :
    mapReplace k v (p :: ps) = (k, v) :: mapReplace k v ps := by
  simp [mapReplace, hp]

theorem mapReplace_cons_ne (k : Nat) (v : CTxMemPoolModifiedEntry)
    (p : Nat × CTxMemPoolModifiedEntry) (ps : ModMap) (hp : p.1 ≠ k) :
    mapReplace k v (p :: ps) = p :: mapReplace k v ps := by
  simp [mapReplace, hp]

theorem modKeys_mapReplace (k : Nat) (v : CTxMemPoolModifiedEntry) (m : ModMap) :
    modKeys (mapReplace k v m) = modKeys m := by
  induction m with
  | nil => rfl
  | cons p ps ih =>
    by_cases hp : p.1 = k
    · rw [mapReplace_cons_self k v p ps hp]
      simp only [modKeys, List.map_cons] at *
      rw [ih, hp]
    · rw [mapReplace_cons_ne k v p ps hp]
      simp only [modKeys, List.map_cons] at *
      rw [ih]

theorem lookup_mapReplace_self (k : Nat) (v : CTxMemPoolModifiedEntry) (m : ModMap)
    (h : k ∈ modKeys m) : List.lookup k (mapReplace k v m) = some v := by
  induction m with
  | nil => simp [modKeys] at h
  | cons p ps ih =>
    by_cases hp : p.1 = k
    · rw [mapReplace_cons_self k v p ps hp]
      exact lookup_cons_self k v _
    · rw [mapReplace_cons_ne k v p ps hp]
      rw [lookup_cons_ne p _ k (fun he => hp he.symm)]
      apply ih
      simp only [modKeys, List.map_cons, List.mem_cons] at h
      rcases h with h | h
      · exact absurd h.symm hp
      · exact h

theorem lookup_mapReplace_ne (k : Nat) (v : CTxMemPoolModifiedEntry) (m : ModMap)
    (j : Nat) (h : j ≠ k) : List.lookup j (mapReplace k v m) = List.lookup j m := by
  induction m with
  | nil => rfl
  | cons p ps ih =>
    by_cases hp : p.1 = k
    · rw [mapReplace_cons_self k v p ps hp]
      rw [lookup_cons_ne (k, v) _ j h, lookup_cons_ne p _ j (hp ▸ h)]
      exact ih
    · rw [mapReplace_cons_ne k v p ps hp]
      by_cases hj : j = p.1
      · subst hj
        rcases p with ⟨a, b⟩
        exact lookup_cons_self a b _ |>.trans (lookup_cons_self a b ps).symm
      · rw [lookup_cons_ne p _ j hj, lookup_cons_ne p _ j hj]
        exact ih

theorem eraseKey_cons_self (k : Nat) (p : Nat × CTxMemPoolModifiedEntry) (ps : ModMap)
    (hp : p.1 = k) : eraseKey k (p :: ps) = eraseKey k ps := by
  simp [eraseKey, List.filter_cons, hp]

theorem eraseKey_cons_ne (k : Nat) (p : Nat × CTxMemPoolModifiedEntry) (ps : ModMap)
    (hp : p.1 ≠ k) : eraseKey k (p :: ps) = p :: eraseKey k ps := by
  simp [eraseKey, List.filter_cons, hp]

theorem lookup_eraseKey_self (k : Nat) (m : ModMap) :
    List.lookup k (eraseKey k m) = none := by
  induction m with
  | nil => rfl
  | cons p ps ih =>
    by_cases hp : p.1 = k
    · rw [eraseKey_cons_self k p ps hp]
      exact ih
    · rw [eraseKey_cons_ne k p ps hp, lookup_cons_ne p _ k (fun he => hp he.symm)]
      exact ih

theorem lookup_eraseKey_ne (k : Nat) (m : ModMap) (j : Nat) (h : j ≠ k) :
    List.lookup j (eraseKey k m) = List.lookup j m := by
  induction m with
  | nil => rfl
  | cons p ps ih =>
    by_cases hp : p.1 = k
    · rw [eraseKey_cons_self k p ps hp, lookup_cons_ne p _ j (hp ▸ h)]
      exact ih
    · rw [eraseKey_cons_ne k p ps hp]
      by_cases hj : j = p.1
      · subst hj
        rcases p with ⟨a, b⟩
        exact lookup_cons_self a b _ |>.trans (lookup_cons_self a b ps).symm
      · rw [lookup_cons_ne p _ j hj, lookup_cons_ne p _ j hj]
        exact ih

theorem modKeys_eraseKey (k : Nat) (m : ModMap) :
    modKeys (eraseKey k m) = (modKeys m).filter (fun x => x ≠ k) := by
  induction m with
  | nil => rfl
  | cons p ps ih =>
    by_cases hp : p.1 = k
    · rw [eraseKey_cons_self k p ps hp]
      simp only [modKeys, List.map_cons] at *
      rw [List.filter_cons_of_neg (by simpa using hp)]
      exact ih
    · rw [eraseKey_cons_ne k p ps hp]
      simp only [modKeys, List.map_cons] at *
      rw [List.filter_cons_of_pos (by simpa using hp)]
      rw [ih]

theorem mem_modKeys_iff_lookup (k : Nat) (m : ModMap) :
    k ∈ modKeys m ↔ (List.lookup k m).isSome = true := by
  rw [List.lookup_isSome_iff]
  simp only [modKeys, List.mem_map, beq_iff_eq]
  constructor
  · rintro ⟨p, hp, hk⟩
    exact ⟨p, hp, hk.symm⟩
  · rintro ⟨p, hp, hk⟩
    exact ⟨p, hp, hk.symm⟩

theorem lookup_eq_none_of_not_mem (k : Nat) (m : ModMap) (h : k ∉ modKeys m) :
    List.lookup k m = none := by
  rcases ho : List.lookup k m with _ | v
  · rfl
  · exact absurd ((mem_modKeys_iff_lookup k m).mpr (by simp [ho])) h

theorem mem_of_lookup_eq_some {k : Nat} {v : CTxMemPoolModifiedEntry} {m : ModMap}
    (h : List.lookup k m = some v) : (k, v) ∈ m := by
  induction m with
  | nil => simp [List.lookup] at h
  | cons p ps ih =>
    by_cases hk : k = p.1
    · rcases p with ⟨a, b⟩
      subst hk
      rw [lookup_cons_self k b ps] at h
      exact (Option.some.inj h) ▸ List.mem_cons_self _ _
    · rw [lookup_cons_ne p ps k hk] at h
      exact List.mem_cons_of_mem _ (ih h)

theorem lookup_eq_some_of_mem {k : Nat} {v : CTxMemPoolModifiedEntry} {m : ModMap}
    (hnd : (modKeys m).Nodup) (h : (k, v) ∈ m) : List.lookup k m = some v := by
  induction m with
  | nil => simp at h
  | cons p ps ih =>
    simp only [modKeys, List.map_cons, List.nodup_cons] at hnd
    rcases List.mem_cons.mp h with h | h
    · subst h
      exact lookup_cons_self k v ps
    · have hk : k ≠ p.1 := by
        intro hk
        exact hnd.1 (hk ▸ (List.mem_map.mpr ⟨(k, v), h, rfl⟩))
      rw [lookup_cons_ne p ps k hk]
      exact ih hnd.2 h

/-! ## Sum lemmas -/

theorem sum_map_filter_add (f : Nat → Int) (p : Nat → Bool) (l : List Nat) :
    ((l.filter p).map f).sum + ((l.filter (fun x => !p x)).map f).sum = (l.map f).sum := by
  induction l with
  | nil => rfl
  | cons a l ih =>
    by_cases h : p a = true
    · rw [List.filter_cons_of_pos h, List.filter_cons_of_neg (by simp [h])]
      simp only [List.map_cons, List.sum_cons]
      omega
    · rw [List.filter_cons_of_neg h, List.filter_cons_of_pos (by simpa using h)]
      simp only [List.map_cons, List.sum_cons]
      omega

theorem sum_map_filter_le (f : Nat → Int) (p : Nat → Bool) (l : List Nat)
    (h : ∀ x ∈ l, 0 ≤ f x) : ((l.filter p).map f).sum ≤ (l.map f).sum := by
  rw [← sum_map_filter_add f p l]
  have : 0 ≤ ((l.filter (fun x => !p x)).map f).sum := by
    apply List.sum_nonneg
    intro x hx
    rcases List.mem_map.mp hx with ⟨y, hy, hxy⟩
    exact hxy ▸ h y (List.mem_filter.mp hy).1
  omega

theorem sum_map_nonneg (f : Nat → Int) (l : List Nat) (h : ∀ x ∈ l, 0 ≤ f x) :
    0 ≤ (l.map f).sum := by
  apply List.sum_nonneg
  intro x hx
  rcases List.mem_map.mp hx with ⟨y, hy, hxy⟩
  exact hxy ▸ h y hy

/-- Sums over the two symmetric intersections of two duplicate-free lists
agree (the two lists enumerate the same set). -/
theorem sum_filter_mem_comm (f : Nat → Int) (p q : List Nat)
    (hp : p.Nodup) (hq : q.Nodup) :
    ((p.filter (fun x => q.contains x)).map f).sum =
    ((q.filter (fun x => p.contains x)).map f).sum := by
  have hperm : (p.filter (fun x => q.contains x)).Perm (q.filter (fun x => p.contains x)) := by
    apply List.perm_of_nodup_nodup_toFinset_eq (hp.filter _) (hq.filter _)
    ext x
    simp only [List.mem_toFinset, List.mem_filter, ]
    constructor
    · rintro ⟨h1, h2⟩
      exact ⟨by simpa using h2, by simpa using h1⟩
    · rintro ⟨h1, h2⟩
      exact ⟨by simpa using h2, by simpa using h1⟩
  exact (hperm.map f).sum_eq

/-! ## Sort lemmas -/

theorem insertByCount_perm (mp : MemPool) (a : Nat) (l : List Nat) :
    (insertByCount mp a l).Perm (a :: l) := by
  induction l with
  | nil => rfl
  | cons b bs ih =>
    simp only [insertByCount]
    split
    · rfl
    · exact (List.Perm.cons b ih).trans (List.Perm.swap a b bs)

theorem sortForBlock_perm (mp : MemPool) (l : List Nat) :
    (SortForBlock mp l).Perm l := by
  induction l with
  | nil => rfl
  | cons a l ih =>
    simp only [SortForBlock, List.foldr_cons]
    exact (insertByCount_perm mp a _).trans (List.Perm.cons a ih)

theorem insertByCount_sorted (mp : MemPool) (a : Nat) (l : List Nat)
    (h : l.Pairwise (fun x y => countOf mp x ≤ countOf mp y)) :
    (insertByCount mp a l).Pairwise (fun x y => countOf mp x ≤ countOf mp y) := by
  induction l with
  | nil => simp [insertByCount]
  | cons b bs ih =>
    simp only [insertByCount]
    split
    next hc =>
      refine List.pairwise_cons.mpr ⟨?_, h⟩
      intro y hy
      rcases List.mem_cons.mp hy with rfl | hy
      · exact hc
      · exact le_trans hc (List.rel_of_pairwise_cons h hy)
    next hc =>
      have hb := List.pairwise_cons.mp h
      refine List.pairwise_cons.mpr ⟨?_, ih hb.2⟩
      intro y hy
      have hy' := (insertByCount_perm mp a bs).mem_iff.mp hy
      rcases List.mem_cons.mp hy' with rfl | hy'
      · omega
      · exact hb.1 y hy'

theorem sortForBlock_sorted (mp : MemPool) (l : List Nat) :
    (SortForBlock mp l).Pairwise (fun x y => countOf mp x ≤ countOf mp y) := by
  induction l with
  | nil => simp [SortForBlock]
  | cons a l ih => exact insertByCount_sorted mp a _ ih

/-! ## Mempool coherence

The selection loop relies on invariants of `CTxMemPool` (maintained by the
pool code, external to the provided sources): the ancestor/descendant
relations are inverse, transitive and irreflexive finite relations over the
pool, the cached aggregates equal the isolated figure plus the sum over the
ancestor set, the ancestor count is the ancestor-set cardinality plus one,
and sizes are positive (serialized transactions are nonempty).  These are the
preconditions under which the assembler runs. -/

structure Coherent (mp : MemPool) : Prop where
  keysNodup : (mpKeys mp).Nodup
  ancInPool : ∀ t ∈ mpKeys mp, ∀ b ∈ ancListOf mp t, b ∈ mpKeys mp
  descInPool : ∀ t ∈ mpKeys mp, ∀ d ∈ descListOf mp t, d ∈ mpKeys mp
  ancNodup : ∀ t ∈ mpKeys mp, (ancListOf mp t).Nodup
  descNodup : ∀ t ∈ mpKeys mp, (descListOf mp t).Nodup
  ancIrrefl : ∀ t ∈ mpKeys mp, t ∉ ancListOf mp t
  ancTrans : ∀ t ∈ mpKeys mp, ∀ b ∈ ancListOf mp t, ∀ a ∈ ancListOf mp b, a ∈ ancListOf mp t
  ancDesc : ∀ t ∈ mpKeys mp, ∀ b ∈ ancListOf mp t, t ∈ descListOf mp b
  descAnc : ∀ t ∈ mpKeys mp, ∀ d ∈ descListOf mp t, t ∈ ancListOf mp d
  aggSizeEq : ∀ t ∈ mpKeys mp, aggSizeOf mp t = txSizeOf mp t + sumTxSize mp (ancListOf mp t)
  aggSigEq : ∀ t ∈ mpKeys mp, aggSigOpsOf mp t = sigOpsOf mp t + sumSigOps mp (ancListOf mp t)
  countEq : ∀ t ∈ mpKeys mp, countOf mp t = (ancListOf mp t).length + 1
  sizePos : ∀ t ∈ mpKeys mp, 1 ≤ txSizeOf mp t
  sigNonneg : ∀ t ∈ mpKeys mp, 0 ≤ sigOpsOf mp t

/-- In a coherent pool a transaction has strictly more ancestors (counting
itself) than any of its ancestors: the justification of `SortForBlock`. -/
theorem count_lt_of_anc {mp : MemPool} (hc : Coherent mp) {t b : Nat}
    (ht : t ∈ mpKeys mp) (hb : b ∈ ancListOf mp t) : countOf mp b < countOf mp t := by
  have hbk : b ∈ mpKeys mp := hc.ancInPool t ht b hb
  have hnd : (b :: ancListOf mp b).Nodup :=
    List.nodup_cons.mpr ⟨hc.ancIrrefl b hbk, hc.ancNodup b hbk⟩
  have hsub : (b :: ancListOf mp b) ⊆ ancListOf mp t := by
    intro a ha
    rcases List.mem_cons.mp ha with rfl | ha
    · exact hb
    · exact hc.ancTrans t ht b hb a ha
  have hlen : (b :: ancListOf mp b).length ≤ (ancListOf mp t).length :=
    (List.subperm_of_subset hnd hsub).length_le
  rw [hc.countEq b hbk, hc.countEq t ht]
  simp only [List.length_cons] at hlen
  omega

/-! ## Characterization of UpdatePackagesForAdded -/

/-- Subtracting a parent then a list equals subtracting the extended list. -/
theorem entryMinus_update (mp : MemPool) (it : Nat) (e : CTxMemPoolModifiedEntry)
    (l : List Nat) :
    entryMinus mp (update_for_parent_inclusion mp it e) l = entryMinus mp e (it :: l) := by
  simp only [entryMinus, update_for_parent_inclusion, sumTxSize, sumModFee, sumSigOps,
    List.map_cons, List.sum_cons, CTxMemPoolModifiedEntry.mk.injEq]
  refine ⟨by ring, by ring, by ring⟩

/-- Subtracting the empty list changes nothing. -/
theorem entryMinus_nil (mp : MemPool) (e : CTxMemPoolModifiedEntry) :
    entryMinus mp e [] = e := by
  simp [entryMinus, sumTxSize, sumModFee, sumSigOps]

/-- Full characterization of the inner descendant walk of
`UpdatePackagesForAdded` for one committed transaction `it`: the counter grows
by the number of descendants outside the committed set, every such descendant
ends up with its start entry minus `it`'s isolated figures, every other key is
untouched, and key distinctness is preserved. -/
theorem updInner_char (mp : MemPool) (S : List Nat) (it : Nat) (ds : List Nat)
    (hds : ds.Nodup) (n : Nat) (mm : ModMap) :
    (updInner mp S it ds (n, mm)).1 = n + (ds.filter (fun d => !S.contains d)).length
    ∧ (∀ d, (d ∈ S ∨ d ∉ ds) →
        List.lookup d (updInner mp S it ds (n, mm)).2 = List.lookup d mm)
    ∧ (∀ d, d ∉ S → d ∈ ds →
        List.lookup d (updInner mp S it ds (n, mm)).2 =
          some (update_for_parent_inclusion mp it (startEntry mp mm d)))
    ∧ ((modKeys mm).Nodup → (modKeys (updInner mp S it ds (n, mm)).2).Nodup) := by
  induction ds generalizing n mm with
  | nil =>
    refine ⟨by simp [updInner], fun d _ => rfl, fun d _ hd => absurd hd (by simp), fun h => h⟩
  | cons d0 ds ih =>
    have hnd := List.nodup_cons.mp hds
    by_cases hS : S.contains d0 = true
    · have hSm : d0 ∈ S := by simpa using hS
      have hstep : updInner mp S it (d0 :: ds) (n, mm) = updInner mp S it ds (n, mm) := by
        simp only [updInner]
        rw [if_pos hS]
      rcases ih hnd.2 n mm with ⟨ihc, ihu, iht, ihn⟩
      refine ⟨?_, ?_, ?_, ?_⟩
      · rw [hstep, ihc, List.filter_cons_of_neg (by simp [hSm])]
      · intro d hd
        rw [hstep]
        apply ihu
        rcases hd with hd | hd
        · exact Or.inl hd
        · exact Or.inr (fun hmem => hd (List.mem_cons_of_mem _ hmem))
      · intro d hdS hdm
        rw [hstep]
        rcases List.mem_cons.mp hdm with rfl | hdm
        · exact absurd hSm hdS
        · exact iht d hdS hdm
      · intro h
        rw [hstep]
        exact ihn h
    · have hSm : d0 ∉ S := by simpa using hS
      rcases hlk : List.lookup d0 mm with _ | me
      · have hstep : updInner mp S it (d0 :: ds) (n, mm) =
            updInner mp S it ds (n + 1,
              (d0, update_for_parent_inclusion mp it (modEntryOf mp d0)) :: mm) := by
          simp only [updInner]
          rw [if_neg hS, hlk]
        rcases ih hnd.2 (n + 1)
          ((d0, update_for_parent_inclusion mp it (modEntryOf mp d0)) :: mm) with
          ⟨ihc, ihu, iht, ihn⟩
        refine ⟨?_, ?_, ?_, ?_⟩
        · rw [hstep, ihc, List.filter_cons_of_pos (by simp [hSm])]
          simp only [List.length_cons]
          omega
        · intro d hd
          have hne : d ≠ d0 := by
            rcases hd with hd | hd
            · exact fun he => hSm (he ▸ hd)
            · exact fun he => hd (he ▸ List.mem_cons_self _ _)
          rw [hstep, ihu d (by
            rcases hd with hd | hd
            · exact Or.inl hd
            · exact Or.inr (fun hmem => hd (List.mem_cons_of_mem _ hmem)))]
          exact lookup_cons_ne (d0, update_for_parent_inclusion mp it (modEntryOf mp d0)) mm d hne
        · intro d hdS hdm
          rcases List.mem_cons.mp hdm with rfl | hdm
          · rw [hstep, ihu d (Or.inr hnd.1), lookup_cons_self]
            simp [startEntry, hlk]
          · rw [hstep, iht d hdS hdm]
            have hne : d ≠ d0 := fun he => hnd.1 (he ▸ hdm)
            simp [startEntry,
              lookup_cons_ne (d0, update_for_parent_inclusion mp it (modEntryOf mp d0)) mm d hne]
        · intro h
          rw [hstep]
          apply ihn
          simp only [modKeys, List.map_cons, List.nodup_cons]
          refine ⟨?_, h⟩
          intro hmem
          have hsome := (mem_modKeys_iff_lookup d0 mm).mp hmem
          rw [hlk] at hsome
          simp at hsome
      · have hstep : updInner mp S it (d0 :: ds) (n, mm) =
            updInner mp S it ds (n + 1,
              mapReplace d0 (update_for_parent_inclusion mp it me) mm) := by
          simp only [updInner]
          rw [if_neg hS, hlk]
        rcases ih hnd.2 (n + 1)
          (mapReplace d0 (update_for_parent_inclusion mp it me) mm) with ⟨ihc, ihu, iht, ihn⟩
        refine ⟨?_, ?_, ?_, ?_⟩
        · rw [hstep, ihc, List.filter_cons_of_pos (by simp [hSm])]
          simp only [List.length_cons]
          omega
        · intro d hd
          have hne : d ≠ d0 := by
            rcases hd with hd | hd
            · exact fun he => hSm (he ▸ hd)
            · exact fun he => hd (he ▸ List.mem_cons_self _ _)
          rw [hstep, ihu d (by
            rcases hd with hd | hd
            · exact Or.inl hd
            · exact Or.inr (fun hmem => hd (List.mem_cons_of_mem _ hmem)))]
          exact lookup_mapReplace_ne d0 _ mm d hne
        · intro d hdS hdm
          rcases List.mem_cons.mp hdm with rfl | hdm
          · rw [hstep, ihu d (Or.inr hnd.1),
              lookup_mapReplace_self d _ mm
                ((mem_modKeys_iff_lookup d mm).mpr (by simp [hlk]))]
            simp [startEntry, hlk]
          · rw [hstep, iht d hdS hdm]
            have hne : d ≠ d0 := fun he => hnd.1 (he ▸ hdm)
            simp [startEntry, lookup_mapReplace_ne d0 (update_for_parent_inclusion mp it me) mm d hne]
        · intro h
          rw [hstep]
          apply ihn
          rw [modKeys_mapReplace]
          exact h

/-- Full characterization of `UpdatePackagesForAdded`'s outer walk over the
committed list `its`: the counter accumulates the per-transaction touches,
committed keys are untouched, and every other key's entry ends up as its start
entry minus the isolated figures of all its committed parents in `its`. -/
theorem updOuter_char (mp : MemPool) (S : List Nat) (its : List Nat)
    (hdesc : ∀ it ∈ its, (descListOf mp it).Nodup) (n : Nat) (mm : ModMap) :
    (updOuter mp S its (n, mm)).1 =
      n + (its.map (fun it => ((descListOf mp it).filter (fun d => !S.contains d)).length)).sum
    ∧ (∀ d, d ∈ S → List.lookup d (updOuter mp S its (n, mm)).2 = List.lookup d mm)
    ∧ (∀ d, d ∉ S →
        List.lookup d (updOuter mp S its (n, mm)).2 =
          (if its.filter (fun it => (descListOf mp it).contains d) = [] then List.lookup d mm
           else some (entryMinus mp (startEntry mp mm d)
             (its.filter (fun it => (descListOf mp it).contains d)))))
    ∧ ((modKeys mm).Nodup → (modKeys (updOuter mp S its (n, mm)).2).Nodup) := by
  induction its generalizing n mm with
  | nil =>
    refine ⟨by simp [updOuter], fun d _ => rfl, fun d _ => by simp [updOuter], fun h => h⟩
  | cons it0 its ih =>
    have hd0 : (descListOf mp it0).Nodup := hdesc it0 (List.mem_cons_self _ _)
    have hdesc' : ∀ it ∈ its, (descListOf mp it).Nodup :=
      fun it hit => hdesc it (List.mem_cons_of_mem _ hit)
    rcases updInner_char mp S it0 (descListOf mp it0) hd0 n mm with ⟨inc, inu, int_, inn⟩
    have hstep : updOuter mp S (it0 :: its) (n, mm) =
        updOuter mp S its (updInner mp S it0 (descListOf mp it0) (n, mm)) := rfl
    have heta : updInner mp S it0 (descListOf mp it0) (n, mm) =
        ((updInner mp S it0 (descListOf mp it0) (n, mm)).1,
         (updInner mp S it0 (descListOf mp it0) (n, mm)).2) := rfl
    rcases ih hdesc' (updInner mp S it0 (descListOf mp it0) (n, mm)).1
      (updInner mp S it0 (descListOf mp it0) (n, mm)).2 with ⟨ohc, ohu, oht, ohn⟩
    rw [heta] at hstep
    refine ⟨?_, ?_, ?_, ?_⟩
    · rw [hstep, ohc, inc]
      simp only [List.map_cons, List.sum_cons]
      omega
    · intro d hd
      rw [hstep, ohu d hd, inu d (Or.inl hd)]
    · intro d hd
      by_cases hmem : d ∈ descListOf mp it0
      · have hfc : (it0 :: its).filter (fun it => (descListOf mp it).contains d) =
            it0 :: its.filter (fun it => (descListOf mp it).contains d) :=
          List.filter_cons_of_pos (by simpa using hmem)
        have hin := int_ d hd hmem
        have hstart : startEntry mp (updInner mp S it0 (descListOf mp it0) (n, mm)).2 d =
            update_for_parent_inclusion mp it0 (startEntry mp mm d) := by
          simp [startEntry, hin]
        rw [hstep, oht d hd, hfc]
        by_cases hrest : its.filter (fun it => (descListOf mp it).contains d) = []
        · rw [if_pos hrest, hrest, if_neg (by simp), hin]
          rw [show entryMinus mp (startEntry mp mm d) [it0] =
              entryMinus mp (update_for_parent_inclusion mp it0 (startEntry mp mm d)) [] from
            (entryMinus_update mp it0 (startEntry mp mm d) []).symm]
          rw [entryMinus_nil]
        · rw [if_neg hrest, if_neg (by simp), hstart, entryMinus_update]
      · have hfc : (it0 :: its).filter (fun it => (descListOf mp it).contains d) =
            its.filter (fun it => (descListOf mp it).contains d) :=
          List.filter_cons_of_neg (by simpa using hmem)
        have hin := inu d (Or.inr hmem)
        have hstart : startEntry mp (updInner mp S it0 (descListOf mp it0) (n, mm)).2 d =
            startEntry mp mm d := by
          simp [startEntry, hin]
        rw [hstep, oht d hd, hfc, hin, hstart]
    · intro h
      rw [hstep]
      exact ohn (inn h)

/-- Claim C5: `UpdatePackagesForAdded(committedSet, tracker)` leaves committed
and untouched keys alone; every in-pool descendant `d` of a committed
transaction with `d` itself outside the committed set ends up with a tracker
entry equal to its start entry (the pre-existing entry if present, else a
fresh one from its cached ancestor aggregates) minus the isolated size,
modified fee and sigop count of each of its committed parents; and the
returned count is the number of (committed transaction, outside descendant)
pairs touched. -/
theorem claim_C5 (mp : MemPool) (S : List Nat) (m : ModMap)
    (hdesc : ∀ it ∈ S, (descListOf mp it).Nodup) :
    (UpdatePackagesForAdded mp S m).1 =
      (S.map (fun it => ((descListOf mp it).filter (fun d => !S.contains d)).length)).sum
    ∧ (∀ d, d ∉ S → committedParents mp S d ≠ [] →
        List.lookup d (UpdatePackagesForAdded mp S m).2 =
          some (entryMinus mp (startEntry mp m d) (committedParents mp S d)))
    ∧ (∀ d, d ∉ S → committedParents mp S d = [] →
        List.lookup d (UpdatePackagesForAdded mp S m).2 = List.lookup d m)
    ∧ (∀ d, d ∈ S → List.lookup d (UpdatePackagesForAdded mp S m).2 = List.lookup d m) := by
  rcases updOuter_char mp S S hdesc 0 m with ⟨hc, hu, ht, _⟩
  refine ⟨?_, ?_, ?_, ?_⟩
  · rw [show UpdatePackagesForAdded mp S m = updOuter mp S S (0, m) from rfl, hc]
    omega
  · intro d hd hne
    rw [show UpdatePackagesForAdded mp S m = updOuter mp S S (0, m) from rfl, ht d hd,
      if_neg (by simpa [committedParents] using hne)]
    rfl
  · intro d hd he
    rw [show UpdatePackagesForAdded mp S m = updOuter mp S S (0, m) from rfl, ht d hd,
      if_pos (by simpa [committedParents] using he)]
  · intro d hd
    rw [show UpdatePackagesForAdded mp S m = updOuter mp S S (0, m) from rfl, hu d hd]

/-- Concrete pool for the claim C5 witness: transaction 1 with descendants 2
and 3, transaction 2 (descendant 3, ancestor 1), transaction 3 (ancestors 1
and 2). -/
def mp5 : MemPool :=
  [(1, ⟨100, 1, 50, 50, 0, [], [2, 3], 100, 50, 1, 1⟩),
   (2, ⟨200, 2, 70, 70, 0, [1], [3], 300, 120, 3, 2⟩),
   (3, ⟨400, 4, 90, 90, 0, [1, 2], [], 700, 210, 7, 3⟩)]

/-- Witness for claim C5: committing transaction 1 of `mp5` against an empty
tracker touches descendants 2 and 3, creating entries with 1's isolated
figures subtracted from their cached aggregates. -/
theorem claim_C5_witness :
    (UpdatePackagesForAdded mp5 [1] []).1 = 2
    ∧ List.lookup 2 (UpdatePackagesForAdded mp5 [1] []).2 = some ⟨200, 70, 2⟩
    ∧ List.lookup 3 (UpdatePackagesForAdded mp5 [1] []).2 = some ⟨600, 160, 6⟩ := by
  rcases claim_C5 mp5 [1] [] (by decide) with ⟨hc, ht, _, _⟩
  refine ⟨by rw [hc]; decide, ?_, ?_⟩
  · rw [ht 2 (by decide) (by decide)]
    decide
  · rw [ht 3 (by decide) (by decide)]
    decide

/-! ## Loop invariant infrastructure -/

theorem TestPackage_true_iff (P : BAParams) (s : BAState) (a b : Int) :
    TestPackage P s a b = true ↔
      s.nBlockSize + a < P.nBlockMaxSize ∧ s.nBlockSigOps + b < P.maxBlockSigOps := by
  simp only [TestPackage]
  split_ifs with h1 h2
  · simp only [Bool.false_eq_true, false_iff]
    omega
  · simp only [Bool.false_eq_true, false_iff]
    omega
  · simp only [true_iff]
    omega

theorem skip_false_parts (s : BAState) (it : Nat) (h : SkipMapTxEntry s it = false) :
    List.lookup it s.mapModifiedTx = none ∧ it ∉ s.blockTxs ∧ it ∉ s.failedTx := by
  have h' := h
  simp only [SkipMapTxEntry, Bool.or_eq_false_iff] at h'
  rcases h' with ⟨⟨h1, h2⟩, h3⟩
  refine ⟨?_, by simpa using h2, by simpa using h3⟩
  rcases ho : List.lookup it s.mapModifiedTx with _ | v
  · rfl
  · rw [ho] at h1
    simp at h1

theorem bestModified_none_iff (m : ModMap) : bestModified m = none ↔ m = [] := by
  cases m with
  | nil => simp [bestModified]
  | cons e es =>
    constructor
    · intro h
      exfalso
      simp only [bestModified] at h
      rcases hb : bestModified es with _ | b <;> rw [hb] at h <;> simp at h
      split at h <;> simp at h
    · intro h
      simp at h

theorem bestModified_mem {m : ModMap} {p : Nat × CTxMemPoolModifiedEntry}
    (h : bestModified m = some p) : p ∈ m := by
  induction m generalizing p with
  | nil => simp [bestModified] at h
  | cons e es ih =>
    rcases hb : bestModified es with _ | b
    · simp only [bestModified, hb] at h
      exact (Option.some.inj h) ▸ List.mem_cons_self _ _
    · simp only [bestModified, hb] at h
      split at h
      · have hbp : b = p := Option.some.inj h
        subst hbp
        exact List.mem_cons_of_mem _ (ih hb)
      · exact (Option.some.inj h) ▸ List.mem_cons_self _ _

/-- The fold-maximum of the tracker really is rate-maximal, provided tracked
sizes are positive (which the loop invariant guarantees): cross-multiplied
rate comparison is transitive on positive denominators. -/
theorem bestModified_maximal {m : ModMap} {k : Nat} {me : CTxMemPoolModifiedEntry}
    (hpos : ∀ q ∈ m, (0 : Int) < q.2.nSizeWithAncestors)
    (h : bestModified m = some (k, me)) :
    ∀ q ∈ m, q.2.nModFeesWithAncestors * me.nSizeWithAncestors ≤
      me.nModFeesWithAncestors * q.2.nSizeWithAncestors := by
  induction m generalizing k me with
  | nil => simp [bestModified] at h
  | cons e es ih =>
    have hpos' : ∀ q ∈ es, (0 : Int) < q.2.nSizeWithAncestors :=
      fun q hq => hpos q (List.mem_cons_of_mem _ hq)
    rcases hb : bestModified es with _ | b
    · simp only [bestModified, hb] at h
      have he : e = (k, me) := Option.some.inj h
      intro q hq
      rcases List.mem_cons.mp hq with rfl | hq
      · rw [he]
      · have hes : es = [] := (bestModified_none_iff es).mp hb
        subst hes
        simp at hq
    · simp only [bestModified, hb] at h
      split at h
      next hgt =>
        have hbp : b = (k, me) := Option.some.inj h
        subst hbp
        intro q hq
        rcases List.mem_cons.mp hq with rfl | hq
        · have hlt : q.2.nModFeesWithAncestors * me.nSizeWithAncestors <
              me.nModFeesWithAncestors * q.2.nSizeWithAncestors := by
            simpa [ancestorFeeRateGT] using hgt
          exact le_of_lt hlt
        · exact ih hpos' hb q hq
      next hgt =>
        have hep : e = (k, me) := Option.some.inj h
        subst hep
        intro q hq
        rcases List.mem_cons.mp hq with rfl | hq
        · exact le_refl _
        · have h1 := ih hpos' hb q hq
          have h2 : b.2.nModFeesWithAncestors * me.nSizeWithAncestors ≤
              me.nModFeesWithAncestors * b.2.nSizeWithAncestors := by
            simpa [ancestorFeeRateGT] using hgt
          have hbs : (0 : Int) < b.2.nSizeWithAncestors :=
            hpos' b (bestModified_mem hb)
          have hqs : (0 : Int) < q.2.nSizeWithAncestors := hpos' q hq
          have hms : (0 : Int) < me.nSizeWithAncestors := hpos (k, me) (List.mem_cons_self _ _)
          nlinarith [mul_le_mul_of_nonneg_right h1 (le_of_lt hms),
            mul_le_mul_of_nonneg_right h2 (le_of_lt hqs)]

/-- Remaining ancestor-package size of a not-yet-committed transaction:
its isolated size plus the sizes of its not-yet-committed ancestors. -/
def remSize (mp : MemPool) (inB : List Nat) (d : Nat) : Int :=
  txSizeOf mp d + sumTxSize mp ((ancListOf mp d).filter (fun b => !inB.contains b))

/-- Remaining ancestor-package sigop count. -/
def remSig (mp : MemPool) (inB : List Nat) (d : Nat) : Int :=
  sigOpsOf mp d + sumSigOps mp ((ancListOf mp d).filter (fun b => !inB.contains b))

/-- Splitting a not-in-`old ++ pkg` filtered sum when `pkg` and `old` are
disjoint: subtract the in-`pkg` part from the not-in-`old` part. -/
theorem sum_filter_append_split (f : Nat → Int) (anc old pkg : List Nat)
    (hdisj : ∀ b ∈ pkg, b ∉ old) :
    ((anc.filter (fun b => !(old ++ pkg).contains b)).map f).sum =
      ((anc.filter (fun b => !old.contains b)).map f).sum -
      ((anc.filter (fun b => pkg.contains b)).map f).sum := by
  induction anc with
  | nil => simp
  | cons a l ih =>
    by_cases hpk : a ∈ pkg
    · have hold : a ∉ old := hdisj a hpk
      rw [List.filter_cons_of_neg (by simp [hpk, hold]), List.filter_cons_of_pos (by simpa using hold),
        List.filter_cons_of_pos (by simpa using hpk)]
      simp only [List.map_cons, List.sum_cons]
      rw [ih]
      ring
    · by_cases hold : a ∈ old
      · rw [List.filter_cons_of_neg (by simp [hold]), List.filter_cons_of_neg (by simpa using hold),
          List.filter_cons_of_neg (by simpa using hpk)]
        exact ih
      · rw [List.filter_cons_of_pos (by simp [hold, hpk]), List.filter_cons_of_pos (by simpa using hold),
          List.filter_cons_of_neg (by simpa using hpk)]
        simp only [List.map_cons, List.sum_cons]
        rw [ih]
        ring

/-- Monotonicity of filtered sums in the exclusion list. -/
theorem sum_filter_not_mono (f : Nat → Int) (anc inB inB' : List Nat)
    (hsub : ∀ b, b ∈ inB → b ∈ inB') (hnn : ∀ x ∈ anc, 0 ≤ f x) :
    ((anc.filter (fun b => !inB'.contains b)).map f).sum ≤
      ((anc.filter (fun b => !inB.contains b)).map f).sum := by
  induction anc with
  | nil => simp
  | cons a l ih =>
    have hnn' : ∀ x ∈ l, 0 ≤ f x := fun x hx => hnn x (List.mem_cons_of_mem _ hx)
    by_cases hmem : a ∈ inB
    · rw [List.filter_cons_of_neg (by simpa using hsub a hmem),
        List.filter_cons_of_neg (by simpa using hmem)]
      exact ih hnn'
    · by_cases hmem' : a ∈ inB'
      · rw [List.filter_cons_of_neg (by simpa using hmem'),
          List.filter_cons_of_pos (by simpa using hmem)]
        have := ih hnn'
        have ha := hnn a (List.mem_cons_self _ _)
        simp only [List.map_cons, List.sum_cons]
        omega
      · rw [List.filter_cons_of_pos (by simpa using hmem'),
          List.filter_cons_of_pos (by simpa using hmem)]
        simp only [List.map_cons, List.sum_cons]
        have := ih hnn'
        omega

/-- In a coherent pool, the committed parents of `d` in a committed set `pkg`
are exactly the `pkg`-members of `d`'s ancestor set. -/
theorem committedParents_eq_ancFilter {mp : MemPool} (hc : Coherent mp) (pkg : List Nat)
    (hpkg : ∀ x ∈ pkg, x ∈ mpKeys mp) (d : Nat) (hd : d ∈ mpKeys mp) :
    committedParents mp pkg d = pkg.filter (fun it => (ancListOf mp d).contains it) := by
  apply List.filter_congr
  intro it hit
  have hitp := hpkg it hit
  by_cases hmem : d ∈ descListOf mp it
  · have h2 : it ∈ ancListOf mp d := hc.descAnc it hitp d hmem
    simp [hmem, h2]
  · have h2 : it ∉ ancListOf mp d := fun hin => hmem (hc.ancDesc d hd it hin)
    simp [hmem, h2]

theorem remSize_pos {mp : MemPool} (hc : Coherent mp) {d : Nat} (hd : d ∈ mpKeys mp)
    (inB : List Nat) : 1 ≤ remSize mp inB d := by
  have h1 := hc.sizePos d hd
  have h2 : 0 ≤ sumTxSize mp ((ancListOf mp d).filter (fun b => !inB.contains b)) := by
    apply sum_map_nonneg
    intro x hx
    have hxp := hc.ancInPool d hd x (List.mem_filter.mp hx).1
    linarith [hc.sizePos x hxp]
  simp only [remSize]
  omega

theorem remSig_nonneg {mp : MemPool} (hc : Coherent mp) {d : Nat} (hd : d ∈ mpKeys mp)
    (inB : List Nat) : 0 ≤ remSig mp inB d := by
  have h1 := hc.sigNonneg d hd
  have h2 : 0 ≤ sumSigOps mp ((ancListOf mp d).filter (fun b => !inB.contains b)) := by
    apply sum_map_nonneg
    intro x hx
    have hxp := hc.ancInPool d hd x (List.mem_filter.mp hx).1
    linarith [hc.sigNonneg x hxp]
  simp only [remSig]
  omega

theorem remSize_le_agg {mp : MemPool} (hc : Coherent mp) {d : Nat} (hd : d ∈ mpKeys mp)
    (inB : List Nat) : remSize mp inB d ≤ aggSizeOf mp d := by
  rw [hc.aggSizeEq d hd]
  simp only [remSize]
  have := sum_map_filter_le (txSizeOf mp) (fun b => !inB.contains b) (ancListOf mp d)
    (fun x hx => le_trans (by norm_num) (hc.sizePos x (hc.ancInPool d hd x hx)))
  simp only [sumTxSize]
  omega

theorem remSig_le_agg {mp : MemPool} (hc : Coherent mp) {d : Nat} (hd : d ∈ mpKeys mp)
    (inB : List Nat) : remSig mp inB d ≤ aggSigOpsOf mp d := by
  rw [hc.aggSigEq d hd]
  simp only [remSig]
  have := sum_map_filter_le (sigOpsOf mp) (fun b => !inB.contains b) (ancListOf mp d)
    (fun x hx => hc.sigNonneg x (hc.ancInPool d hd x hx))
  simp only [sumSigOps]
  omega

/-- The invariant of one pass of the selection loop.  `lastAccepted` is the
ghost record of the last committed package's tested figures. -/
structure LoopInv (P : BAParams) (mp : MemPool) (s : BAState) : Prop where
  capSize : s.nBlockSize < P.nBlockMaxSize
  capSig : s.nBlockSigOps < P.maxBlockSigOps
  blockNodup : s.blockTxs.Nodup
  blockInPool : ∀ t ∈ s.blockTxs, t ∈ mpKeys mp
  closure : ∀ t ∈ s.blockTxs, ∀ b ∈ ancListOf mp t, b ∈ s.blockTxs
  topo : s.blockTxs.Pairwise (fun x y => y ∉ ancListOf mp x)
  mapNodup : (modKeys s.mapModifiedTx).Nodup
  mapInPool : ∀ d ∈ modKeys s.mapModifiedTx, d ∈ mpKeys mp
  mapDisjoint : ∀ d ∈ modKeys s.mapModifiedTx, d ∉ s.blockTxs
  modSizeGE : ∀ p ∈ s.mapModifiedTx, remSize mp s.blockTxs p.1 ≤ p.2.nSizeWithAncestors
  modSigGE : ∀ p ∈ s.mapModifiedTx, remSig mp s.blockTxs p.1 ≤ p.2.nSigOpCountWithAncestors
  restInPool : ∀ c ∈ s.rest, c ∈ mpKeys mp
  restSorted : s.rest.Pairwise (fun a b =>
    aggFeesOf mp b * aggSizeOf mp a ≤ aggFeesOf mp a * aggSizeOf mp b)
  lastOk : ∀ f sz, s.lastAccepted = some (f, sz) → P.blockMinFeeRate * sz ≤ f ∧ 0 ≤ sz

/-- Tracked package sizes are positive under the invariant. -/
theorem inv_modSize_pos {P : BAParams} {mp : MemPool} {s : BAState}
    (hc : Coherent mp) (h : LoopInv P mp s) :
    ∀ q ∈ s.mapModifiedTx, (0 : Int) < q.2.nSizeWithAncestors := by
  intro q hq
  have hk : q.1 ∈ mpKeys mp :=
    h.mapInPool q.1 (List.mem_map.mpr ⟨q, hq, rfl⟩)
  have := h.modSizeGE q hq
  have := remSize_pos hc hk s.blockTxs
  omega

/-- Dropping the head of the iteration order preserves the invariant. -/
theorem inv_tail {P : BAParams} {mp : MemPool} {s : BAState} {mi : Nat} {rest' : List Nat}
    (h : LoopInv P mp s) (hrest : s.rest = mi :: rest') :
    LoopInv P mp { s with rest := rest' } := by
  refine ⟨h.capSize, h.capSig, h.blockNodup, h.blockInPool, h.closure, h.topo, h.mapNodup,
    h.mapInPool, h.mapDisjoint, h.modSizeGE, h.modSigGE, ?_, ?_, h.lastOk⟩
  · intro c hcm
    exact h.restInPool c (by rw [hrest]; exact List.mem_cons_of_mem _ hcm)
  · have := h.restSorted
    rw [hrest] at this
    exact (List.pairwise_cons.mp this).2

/-- Failure bookkeeping preserves the invariant. -/
theorem inv_failBookkeep {P : BAParams} {mp : MemPool} {s : BAState} (c : Candidate)
    (h : LoopInv P mp s) : LoopInv P mp (failBookkeep s c) := by
  simp only [failBookkeep]
  split
  · refine ⟨h.capSize, h.capSig, h.blockNodup, h.blockInPool, h.closure, h.topo, ?_, ?_, ?_,
      ?_, ?_, h.restInPool, h.restSorted, h.lastOk⟩
    · rw [modKeys_eraseKey]
      exact h.mapNodup.filter _
    · intro d hd
      rw [modKeys_eraseKey] at hd
      exact h.mapInPool d (List.mem_filter.mp hd).1
    · intro d hd
      rw [modKeys_eraseKey] at hd
      exact h.mapDisjoint d (List.mem_filter.mp hd).1
    · intro p hp
      exact h.modSizeGE p (List.mem_filter.mp hp).1
    · intro p hp
      exact h.modSigGE p (List.mem_filter.mp hp).1
  · exact h

/-- Bumping the failure counter preserves the invariant (it is not tracked). -/
theorem inv_counter {P : BAParams} {mp : MemPool} {s : BAState} (n : Int)
    (h : LoopInv P mp s) : LoopInv P mp { s with nConsecutiveFailed := n } := by
  exact ⟨h.capSize, h.capSig, h.blockNodup, h.blockInPool, h.closure, h.topo, h.mapNodup,
    h.mapInPool, h.mapDisjoint, h.modSizeGE, h.modSigGE, h.restInPool, h.restSorted, h.lastOk⟩

theorem selectCandidate_skip_state {mp : MemPool} {s s' : BAState}
    (h : selectCandidate mp s = SelOut.skipStale s') :
    ∃ mi rest', s.rest = mi :: rest' ∧ SkipMapTxEntry s mi = true ∧
      s' = { s with rest := rest' } := by
  rcases hr : s.rest with _ | ⟨mi, rest'⟩
  · simp only [selectCandidate, hr] at h
    rcases hb : bestModified s.mapModifiedTx with _ | p <;> rw [hb] at h <;>
      simp only [] at h <;> simp at h
  · simp only [selectCandidate, hr] at h
    by_cases hskip : SkipMapTxEntry s mi = true
    · rw [if_pos hskip] at h
      exact ⟨mi, rest', rfl, hskip, (SelOut.skipStale.inj h).symm⟩
    · rw [if_neg hskip] at h
      rcases hb : bestModified s.mapModifiedTx with _ | ⟨k, me⟩ <;> rw [hb] at h <;>
        simp only [] at h
      · simp at h
      · split at h <;> simp at h

theorem selectCandidate_pick_char {mp : MemPool} {s s' : BAState} {c : Candidate}
    (h : selectCandidate mp s = SelOut.pick c s') :
    (∃ k me, bestModified s.mapModifiedTx = some (k, me) ∧ c = modCandidate k me ∧ s' = s)
    ∨ (∃ mi rest', s.rest = mi :: rest' ∧ SkipMapTxEntry s mi = false ∧
        c = cachedCandidate mp mi ∧ s' = { s with rest := rest' }) := by
  rcases hr : s.rest with _ | ⟨mi, rest'⟩
  · simp only [selectCandidate, hr] at h
    rcases hb : bestModified s.mapModifiedTx with _ | ⟨k, me⟩ <;> rw [hb] at h <;>
      simp only [] at h
    · simp at h
    · rcases SelOut.pick.inj h with ⟨hc1, hc2⟩
      exact Or.inl ⟨k, me, rfl, hc1.symm, hc2.symm⟩
  · simp only [selectCandidate, hr] at h
    by_cases hskip : SkipMapTxEntry s mi = true
    · rw [if_pos hskip] at h
      simp at h
    · rw [if_neg hskip] at h
      have hskipf : SkipMapTxEntry s mi = false := by
        rcases hx : SkipMapTxEntry s mi with _ | _
        · rfl
        · exact absurd hx hskip
      rcases hb : bestModified s.mapModifiedTx with _ | ⟨k, me⟩ <;> rw [hb] at h <;>
        simp only [] at h
      · rcases SelOut.pick.inj h with ⟨hc1, hc2⟩
        exact Or.inr ⟨mi, rest', rfl, hskipf, hc1.symm, hc2.symm⟩
      · split at h
        · rcases SelOut.pick.inj h with ⟨hc1, hc2⟩
          exact Or.inl ⟨k, me, rfl, hc1.symm, hc2.symm⟩
        · rcases SelOut.pick.inj h with ⟨hc1, hc2⟩
          exact Or.inr ⟨mi, rest', rfl, hskipf, hc1.symm, hc2.symm⟩

/-- State characterization of the commit fold. -/
theorem foldl_commitOne_char (mp : MemPool) (l : List Nat) (s : BAState) :
    (l.foldl (commitOne mp) s).blockTxs = s.blockTxs ++ l
    ∧ (l.foldl (commitOne mp) s).nBlockSize = s.nBlockSize + sumTxSize mp l
    ∧ (l.foldl (commitOne mp) s).nBlockSigOps = s.nBlockSigOps + sumSigOps mp l
    ∧ (l.foldl (commitOne mp) s).rest = s.rest
    ∧ (l.foldl (commitOne mp) s).failedTx = s.failedTx
    ∧ (l.foldl (commitOne mp) s).lastAccepted = s.lastAccepted
    ∧ (∀ d, List.lookup d (l.foldl (commitOne mp) s).mapModifiedTx =
        if l.contains d then none else List.lookup d s.mapModifiedTx)
    ∧ ((modKeys s.mapModifiedTx).Nodup →
        (modKeys (l.foldl (commitOne mp) s).mapModifiedTx).Nodup) := by
  induction l generalizing s with
  | nil =>
    refine ⟨by simp, by simp [sumTxSize], by simp [sumSigOps], rfl, rfl, rfl, ?_, fun h => h⟩
    intro d
    simp
  | cons t ts ih =>
    have hfold : (t :: ts).foldl (commitOne mp) s = ts.foldl (commitOne mp) (commitOne mp s t) :=
      rfl
    rcases ih (commitOne mp s t) with ⟨h1, h2, h3, h4, h5, h6, h7, h8⟩
    refine ⟨?_, ?_, ?_, ?_, ?_, ?_, ?_, ?_⟩
    · rw [hfold, h1]
      simp [commitOne, AddToBlock]
    · rw [hfold, h2]
      simp only [commitOne, AddToBlock, sumTxSize, List.map_cons, List.sum_cons]
      omega
    · rw [hfold, h3]
      simp only [commitOne, AddToBlock, sumSigOps, List.map_cons, List.sum_cons]
      omega
    · rw [hfold, h4]
      simp [commitOne, AddToBlock]
    · rw [hfold, h5]
      simp [commitOne, AddToBlock]
    · rw [hfold, h6]
      simp [commitOne, AddToBlock]
    · intro d
      rw [hfold, h7 d]
      by_cases hdt : d = t
      · subst hdt
        by_cases hdts : d ∈ ts
        · simp [hdts]
        · simp only [show (ts.contains d) = false by simpa using hdts, if_neg]
          simp only [commitOne]
          rw [lookup_eraseKey_self]
          simp
      · by_cases hdts : d ∈ ts
        · simp [hdts, hdt]
        · have hc1 : ((t :: ts).contains d) = false := by
            simp [hdt, hdts]
          have hc2 : (ts.contains d) = false := by simpa using hdts
          rw [hc1, hc2]
          simp only [Bool.false_eq_true, if_neg, commitOne]
          exact lookup_eraseKey_ne t _ d hdt
    · intro hnd
      rw [hfold]
      apply h8
      simp only [commitOne]
      rw [modKeys_eraseKey]
      exact hnd.filter _

/-- Structural facts about a candidate's ancestor package. -/
theorem package_facts {mp : MemPool} (hc : Coherent mp) (s : BAState) (iter : Nat)
    (hiter : iter ∈ mpKeys mp) (hnb : iter ∉ s.blockTxs) :
    (packageOf mp s iter).Nodup
    ∧ (∀ x ∈ packageOf mp s iter, x ∈ mpKeys mp)
    ∧ (∀ x ∈ packageOf mp s iter, x ∉ s.blockTxs)
    ∧ (∀ x ∈ packageOf mp s iter, ∀ b ∈ ancListOf mp x,
        b ∈ s.blockTxs ∨ b ∈ packageOf mp s iter)
    ∧ iter ∈ packageOf mp s iter := by
  have hmem : ∀ x, x ∈ packageOf mp s iter ↔
      ((x ∈ ancListOf mp iter ∧ x ∉ s.blockTxs) ∨ x = iter) := by
    intro x
    simp [packageOf, List.mem_append, List.mem_filter]
  refine ⟨?_, ?_, ?_, ?_, ?_⟩
  · simp only [packageOf]
    rw [List.nodup_append]
    refine ⟨(hc.ancNodup iter hiter).filter _, List.nodup_singleton _, ?_⟩
    intro a ha hb
    simp only [List.mem_singleton] at hb
    rw [hb] at ha
    exact hc.ancIrrefl iter hiter (List.mem_filter.mp ha).1
  · intro x hx
    rcases (hmem x).mp hx with ⟨hxa, _⟩ | rfl
    · exact hc.ancInPool iter hiter x hxa
    · exact hiter
  · intro x hx
    rcases (hmem x).mp hx with ⟨_, hxn⟩ | rfl
    · exact hxn
    · exact hnb
  · intro x hx b hb
    have hba : b ∈ ancListOf mp iter := by
      rcases (hmem x).mp hx with ⟨hxa, _⟩ | rfl
      · exact hc.ancTrans iter hiter x hxa b hb
      · exact hb
    by_cases hbin : b ∈ s.blockTxs
    · exact Or.inl hbin
    · exact Or.inr ((hmem b).mpr (Or.inl ⟨hba, hbin⟩))
  · exact (hmem iter).mpr (Or.inr rfl)

theorem sumTxSize_package (mp : MemPool) (s : BAState) (iter : Nat) :
    sumTxSize mp (packageOf mp s iter) = remSize mp s.blockTxs iter := by
  simp only [packageOf, sumTxSize, remSize, List.map_append, List.sum_append]
  simp
  ring

theorem sumSigOps_package (mp : MemPool) (s : BAState) (iter : Nat) :
    sumSigOps mp (packageOf mp s iter) = remSig mp s.blockTxs iter := by
  simp only [packageOf, sumSigOps, remSig, List.map_append, List.sum_append]
  simp
  ring

/-- `SortForBlock` output is a valid topological order of the package: no
entry is followed by one of its ancestors. -/
theorem sortForBlock_topo {mp : MemPool} (hc : Coherent mp) (pkg : List Nat)
    (hpool : ∀ x ∈ pkg, x ∈ mpKeys mp) :
    (SortForBlock mp pkg).Pairwise (fun x y => y ∉ ancListOf mp x) := by
  have hs := sortForBlock_sorted mp pkg
  apply List.Pairwise.imp_of_mem ?_ hs
  intro a b ha hb hr hmem
  have hap : a ∈ mpKeys mp := hpool a ((sortForBlock_perm mp pkg).mem_iff.mp ha)
  have := count_lt_of_anc hc hap hmem
  omega

/-- Lookup-level summary of `UpdatePackagesForAdded`. -/
theorem UpdatePackagesForAdded_lookup (mp : MemPool) (S : List Nat) (m : ModMap)
    (hdesc : ∀ it ∈ S, (descListOf mp it).Nodup) :
    (∀ d, d ∈ S → List.lookup d (UpdatePackagesForAdded mp S m).2 = List.lookup d m)
    ∧ (∀ d, d ∉ S →
        List.lookup d (UpdatePackagesForAdded mp S m).2 =
          (if committedParents mp S d = [] then List.lookup d m
           else some (entryMinus mp (startEntry mp m d) (committedParents mp S d))))
    ∧ ((modKeys m).Nodup → (modKeys (UpdatePackagesForAdded mp S m).2).Nodup) := by
  rcases updOuter_char mp S S hdesc 0 m with ⟨_, hu, ht, hn⟩
  exact ⟨hu, ht, hn⟩

/-- Committed-set sum rewriting: excluding `old ++ sorted` equals excluding
`old` minus the members of the committed package. -/
theorem commit_rem_split (f : Nat → Int) (anc old sorted pkg : List Nat)
    (hperm : sorted.Perm pkg) (hdisj : ∀ b ∈ pkg, b ∉ old) :
    ((anc.filter (fun b => !(old ++ sorted).contains b)).map f).sum =
      ((anc.filter (fun b => !old.contains b)).map f).sum -
      ((anc.filter (fun b => pkg.contains b)).map f).sum := by
  have hcc : ∀ x, (sorted.contains x) = (pkg.contains x) := by
    intro x
    by_cases hx : x ∈ pkg
    · have : x ∈ sorted := hperm.mem_iff.mpr hx
      simp [hx, this]
    · have : x ∉ sorted := fun hxx => hx (hperm.mem_iff.mp hxx)
      simp [hx, this]
  rw [sum_filter_append_split f anc old sorted (fun b hb => hdisj b (hperm.mem_iff.mp hb))]
  rw [List.filter_congr (fun x _ => hcc x)]

/-- The committed-parents sum of `d` equals the sum over `d`'s ancestors lying
in the package. -/
theorem cp_sum_eq {mp : MemPool} (hc : Coherent mp) (f : Nat → Int) (pkg : List Nat)
    (hPool : ∀ x ∈ pkg, x ∈ mpKeys mp) (hNodup : pkg.Nodup) (d : Nat) (hd : d ∈ mpKeys mp) :
    ((committedParents mp pkg d).map f).sum =
      (((ancListOf mp d).filter (fun b => pkg.contains b)).map f).sum := by
  rw [committedParents_eq_ancFilter hc pkg hPool d hd]
  exact sum_filter_mem_comm f pkg (ancListOf mp d) hNodup (hc.ancNodup d hd)

/-- Invariant preservation by the commit branch of one loop iteration. -/
theorem commit_step_inv {P : BAParams} {mp : MemPool} {s : BAState}
    (hc : Coherent mp) (h : LoopInv P mp s) (c : Candidate)
    (hiterPool : c.iter ∈ mpKeys mp) (hiterNB : c.iter ∉ s.blockTxs)
    (hsize : s.nBlockSize + c.pkgSize < P.nBlockMaxSize)
    (hsig : s.nBlockSigOps + c.pkgSigOps < P.maxBlockSigOps)
    (hszGE : remSize mp s.blockTxs c.iter ≤ c.pkgSize)
    (hsgGE : remSig mp s.blockTxs c.iter ≤ c.pkgSigOps)
    (hfee : P.blockMinFeeRate * c.pkgSize ≤ c.pkgFees)
    (hszpos : 0 ≤ c.pkgSize) :
    LoopInv P mp
      { (SortForBlock mp (packageOf mp s c.iter)).foldl (commitOne mp) s with
        nConsecutiveFailed := 0,
        lastAccepted := some (c.pkgFees, c.pkgSize),
        mapModifiedTx := (UpdatePackagesForAdded mp (packageOf mp s c.iter)
          ((SortForBlock mp (packageOf mp s c.iter)).foldl (commitOne mp) s).mapModifiedTx).2 } := by
  rcases package_facts hc s c.iter hiterPool hiterNB with ⟨pkgNodup, pkgPool, pkgNB, pkgClosure, _⟩
  have hperm := sortForBlock_perm mp (packageOf mp s c.iter)
  have sortedNodup : (SortForBlock mp (packageOf mp s c.iter)).Nodup :=
    (hperm.nodup_iff).mpr pkgNodup
  rcases foldl_commitOne_char mp (SortForBlock mp (packageOf mp s c.iter)) s with
    ⟨f1, f2, f3, f4, f5, _, f7, f8⟩
  have hsumsz : sumTxSize mp (SortForBlock mp (packageOf mp s c.iter)) =
      remSize mp s.blockTxs c.iter := by
    rw [show sumTxSize mp (SortForBlock mp (packageOf mp s c.iter)) =
        sumTxSize mp (packageOf mp s c.iter) from (hperm.map (txSizeOf mp)).sum_eq]
    exact sumTxSize_package mp s c.iter
  have hsumsg : sumSigOps mp (SortForBlock mp (packageOf mp s c.iter)) =
      remSig mp s.blockTxs c.iter := by
    rw [show sumSigOps mp (SortForBlock mp (packageOf mp s c.iter)) =
        sumSigOps mp (packageOf mp s c.iter) from (hperm.map (sigOpsOf mp)).sum_eq]
    exact sumSigOps_package mp s c.iter
  have hdesc : ∀ it ∈ packageOf mp s c.iter, (descListOf mp it).Nodup :=
    fun it hit => hc.descNodup it (pkgPool it hit)
  rcases UpdatePackagesForAdded_lookup mp (packageOf mp s c.iter)
    ((SortForBlock mp (packageOf mp s c.iter)).foldl (commitOne mp) s).mapModifiedTx hdesc with
    ⟨u1, u2, u3⟩
  -- membership in the final tracker
  have hfinal : ∀ d e,
      List.lookup d (UpdatePackagesForAdded mp (packageOf mp s c.iter)
        ((SortForBlock mp (packageOf mp s c.iter)).foldl (commitOne mp) s).mapModifiedTx).2 =
        some e →
      d ∉ packageOf mp s c.iter ∧ d ∈ mpKeys mp ∧ d ∉ s.blockTxs ∧
        d ∉ SortForBlock mp (packageOf mp s c.iter) := by
    intro d e hlk
    have hdnp : d ∉ packageOf mp s c.iter := by
      intro hdp
      rw [u1 d hdp, f7 d, if_pos (by simpa using hperm.mem_iff.mpr hdp)] at hlk
      exact Option.noConfusion hlk
    have hdns : d ∉ SortForBlock mp (packageOf mp s c.iter) :=
      fun hds => hdnp (hperm.mem_iff.mp hds)
    rw [u2 d hdnp] at hlk
    by_cases hcp : committedParents mp (packageOf mp s c.iter) d = []
    · rw [if_pos hcp, f7 d, if_neg (by simpa using hdns)] at hlk
      have hdm : d ∈ modKeys s.mapModifiedTx :=
        (mem_modKeys_iff_lookup d s.mapModifiedTx).mpr (by simp [hlk])
      exact ⟨hdnp, h.mapInPool d hdm, h.mapDisjoint d hdm, hdns⟩
    · have hex : ∃ it ∈ packageOf mp s c.iter, ((descListOf mp it).contains d) = true := by
        by_contra hne
        push_neg at hne
        exact hcp (List.filter_eq_nil_iff.mpr hne)
      rcases hex with ⟨it, hit, hitd⟩
      have hitp := pkgPool it hit
      have hdmem : d ∈ descListOf mp it := by simpa using hitd
      have hdp : d ∈ mpKeys mp := hc.descInPool it hitp d hdmem
      have hanc : it ∈ ancListOf mp d := hc.descAnc it hitp d hdmem
      refine ⟨hdnp, hdp, ?_, hdns⟩
      intro hdin
      exact pkgNB it hit (h.closure d hdin it hanc)
  refine ⟨?_, ?_, ?_, ?_, ?_, ?_, ?_, ?_, ?_, ?_, ?_, ?_, ?_, ?_⟩
  · show ((SortForBlock mp (packageOf mp s c.iter)).foldl (commitOne mp) s).nBlockSize <
      P.nBlockMaxSize
    rw [f2, hsumsz]
    omega
  · show ((SortForBlock mp (packageOf mp s c.iter)).foldl (commitOne mp) s).nBlockSigOps <
      P.maxBlockSigOps
    rw [f3, hsumsg]
    omega
  · show (((SortForBlock mp (packageOf mp s c.iter)).foldl (commitOne mp) s).blockTxs).Nodup
    rw [f1, List.nodup_append]
    refine ⟨h.blockNodup, sortedNodup, ?_⟩
    intro a ha hb
    exact pkgNB a (hperm.mem_iff.mp hb) ha
  · show ∀ t ∈ ((SortForBlock mp (packageOf mp s c.iter)).foldl (commitOne mp) s).blockTxs,
      t ∈ mpKeys mp
    rw [f1]
    intro t ht
    rcases List.mem_append.mp ht with ht | ht
    · exact h.blockInPool t ht
    · exact pkgPool t (hperm.mem_iff.mp ht)
  · show ∀ t ∈ ((SortForBlock mp (packageOf mp s c.iter)).foldl (commitOne mp) s).blockTxs,
      ∀ b ∈ ancListOf mp t,
        b ∈ ((SortForBlock mp (packageOf mp s c.iter)).foldl (commitOne mp) s).blockTxs
    rw [f1]
    intro t ht b hb
    rcases List.mem_append.mp ht with ht | ht
    · exact List.mem_append.mpr (Or.inl (h.closure t ht b hb))
    · rcases pkgClosure t (hperm.mem_iff.mp ht) b hb with hbin | hbin
      · exact List.mem_append.mpr (Or.inl hbin)
      · exact List.mem_append.mpr (Or.inr (hperm.mem_iff.mpr hbin))
  · show (((SortForBlock mp (packageOf mp s c.iter)).foldl (commitOne mp) s).blockTxs).Pairwise
      (fun x y => y ∉ ancListOf mp x)
    rw [f1, List.pairwise_append]
    refine ⟨h.topo, sortForBlock_topo hc _ pkgPool, ?_⟩
    intro a ha b hb hmem
    exact pkgNB b (hperm.mem_iff.mp hb) (h.closure a ha b hmem)
  · exact u3 (f8 h.mapNodup)
  · intro d hd
    have hsome := (mem_modKeys_iff_lookup d _).mp hd
    rcases ho : List.lookup d (UpdatePackagesForAdded mp (packageOf mp s c.iter)
        ((SortForBlock mp (packageOf mp s c.iter)).foldl (commitOne mp) s).mapModifiedTx).2 with
      _ | e
    · rw [ho] at hsome
      simp at hsome
    · exact (hfinal d e ho).2.1
  · intro d hd
    have hsome := (mem_modKeys_iff_lookup d _).mp hd
    rcases ho : List.lookup d (UpdatePackagesForAdded mp (packageOf mp s c.iter)
        ((SortForBlock mp (packageOf mp s c.iter)).foldl (commitOne mp) s).mapModifiedTx).2 with
      _ | e
    · rw [ho] at hsome
      simp at hsome
    · rcases hfinal d e ho with ⟨_, _, hdob, hdns⟩
      show d ∉ ((SortForBlock mp (packageOf mp s c.iter)).foldl (commitOne mp) s).blockTxs
      rw [f1]
      intro hmem
      rcases List.mem_append.mp hmem with hm | hm
      · exact hdob hm
      · exact hdns hm
  · intro p hp
    have hnd := u3 (f8 h.mapNodup)
    have hlk := lookup_eq_some_of_mem hnd hp
    rcases hfinal p.1 p.2 hlk with ⟨hdnp, hdp, hdob, hdns⟩
    rw [u2 p.1 hdnp] at hlk
    have hnewBlock : (((SortForBlock mp (packageOf mp s c.iter)).foldl (commitOne mp)
        s)).blockTxs = s.blockTxs ++ SortForBlock mp (packageOf mp s c.iter) := f1
    by_cases hcp : committedParents mp (packageOf mp s c.iter) p.1 = []
    · rw [if_pos hcp, f7 p.1, if_neg (by simpa using hdns)] at hlk
      have hold := h.modSizeGE p (mem_of_lookup_eq_some hlk)
      have hmono : remSize mp (s.blockTxs ++ SortForBlock mp (packageOf mp s c.iter)) p.1 ≤
          remSize mp s.blockTxs p.1 := by
        simp only [remSize]
        have := sum_filter_not_mono (txSizeOf mp) (ancListOf mp p.1) s.blockTxs
          (s.blockTxs ++ SortForBlock mp (packageOf mp s c.iter))
          (fun b hb => List.mem_append.mpr (Or.inl hb))
          (fun x hx => le_trans (by norm_num) (hc.sizePos x (hc.ancInPool p.1 hdp x hx)))
        simp only [sumTxSize]
        omega
      show remSize mp (((SortForBlock mp (packageOf mp s c.iter)).foldl (commitOne mp)
          s)).blockTxs p.1 ≤ p.2.nSizeWithAncestors
      rw [hnewBlock]
      omega
    · rw [if_neg hcp] at hlk
      have he := Option.some.inj hlk
      have hsplit := commit_rem_split (txSizeOf mp) (ancListOf mp p.1) s.blockTxs
        (SortForBlock mp (packageOf mp s c.iter)) (packageOf mp s c.iter) hperm pkgNB
      have hcpsum : ((committedParents mp (packageOf mp s c.iter) p.1).map (txSizeOf mp)).sum =
          (((ancListOf mp p.1).filter
            (fun b => (packageOf mp s c.iter).contains b)).map (txSizeOf mp)).sum :=
        cp_sum_eq hc (txSizeOf mp) (packageOf mp s c.iter) pkgPool pkgNodup p.1 hdp
      show remSize mp (((SortForBlock mp (packageOf mp s c.iter)).foldl (commitOne mp)
          s)).blockTxs p.1 ≤ p.2.nSizeWithAncestors
      rw [hnewBlock, ← he]
      simp only [remSize, entryMinus, sumTxSize]
      rcases ho : List.lookup p.1 (((SortForBlock mp (packageOf mp s c.iter)).foldl
          (commitOne mp) s)).mapModifiedTx with _ | e0
      · -- fresh entry: start from cached aggregates
        simp only [startEntry, ho, Option.getD, modEntryOf]
        rw [hc.aggSizeEq p.1 hdp]
        have htotal := sum_map_filter_add (txSizeOf mp)
          (fun b => (packageOf mp s c.iter).contains b) (ancListOf mp p.1)
        have hmono2 := sum_filter_not_mono (txSizeOf mp) (ancListOf mp p.1)
          (packageOf mp s c.iter) (s.blockTxs ++ SortForBlock mp (packageOf mp s c.iter))
          (fun b hb => List.mem_append.mpr (Or.inr (hperm.mem_iff.mpr hb)))
          (fun x hx => le_trans (by norm_num) (hc.sizePos x (hc.ancInPool p.1 hdp x hx)))
        simp only [sumTxSize] at *
        omega
      · -- existing entry: it was accurate for the old block set
        have hlkold : List.lookup p.1 s.mapModifiedTx = some e0 := by
          rw [f7 p.1, if_neg (by simpa using hdns)] at ho
          exact ho
        have hold := h.modSizeGE (p.1, e0) (mem_of_lookup_eq_some hlkold)
        simp only [startEntry, ho, Option.getD]
        simp only [remSize, sumTxSize] at hold
        omega
  · intro p hp
    have hnd := u3 (f8 h.mapNodup)
    have hlk := lookup_eq_some_of_mem hnd hp
    rcases hfinal p.1 p.2 hlk with ⟨hdnp, hdp, hdob, hdns⟩
    rw [u2 p.1 hdnp] at hlk
    have hnewBlock : (((SortForBlock mp (packageOf mp s c.iter)).foldl (commitOne mp)
        s)).blockTxs = s.blockTxs ++ SortForBlock mp (packageOf mp s c.iter) := f1
    by_cases hcp : committedParents mp (packageOf mp s c.iter) p.1 = []
    · rw [if_pos hcp, f7 p.1, if_neg (by simpa using hdns)] at hlk
      have hold := h.modSigGE p (mem_of_lookup_eq_some hlk)
      have hmono : remSig mp (s.blockTxs ++ SortForBlock mp (packageOf mp s c.iter)) p.1 ≤
          remSig mp s.blockTxs p.1 := by
        simp only [remSig]
        have := sum_filter_not_mono (sigOpsOf mp) (ancListOf mp p.1) s.blockTxs
          (s.blockTxs ++ SortForBlock mp (packageOf mp s c.iter))
          (fun b hb => List.mem_append.mpr (Or.inl hb))
          (fun x hx => hc.sigNonneg x (hc.ancInPool p.1 hdp x hx))
        simp only [sumSigOps]
        omega
      show remSig mp (((SortForBlock mp (packageOf mp s c.iter)).foldl (commitOne mp)
          s)).blockTxs p.1 ≤ p.2.nSigOpCountWithAncestors
      rw [hnewBlock]
      omega
    · rw [if_neg hcp] at hlk
      have he := Option.some.inj hlk
      have hsplit := commit_rem_split (sigOpsOf mp) (ancListOf mp p.1) s.blockTxs
        (SortForBlock mp (packageOf mp s c.iter)) (packageOf mp s c.iter) hperm pkgNB
      have hcpsum : ((committedParents mp (packageOf mp s c.iter) p.1).map (sigOpsOf mp)).sum =
          (((ancListOf mp p.1).filter
            (fun b => (packageOf mp s c.iter).contains b)).map (sigOpsOf mp)).sum :=
        cp_sum_eq hc (sigOpsOf mp) (packageOf mp s c.iter) pkgPool pkgNodup p.1 hdp
      show remSig mp (((SortForBlock mp (packageOf mp s c.iter)).foldl (commitOne mp)
          s)).blockTxs p.1 ≤ p.2.nSigOpCountWithAncestors
      rw [hnewBlock, ← he]
      simp only [remSig, entryMinus, sumSigOps]
      rcases ho : List.lookup p.1 (((SortForBlock mp (packageOf mp s c.iter)).foldl
          (commitOne mp) s)).mapModifiedTx with _ | e0
      · simp only [startEntry, ho, Option.getD, modEntryOf]
        rw [hc.aggSigEq p.1 hdp]
        have htotal := sum_map_filter_add (sigOpsOf mp)
          (fun b => (packageOf mp s c.iter).contains b) (ancListOf mp p.1)
        have hmono2 := sum_filter_not_mono (sigOpsOf mp) (ancListOf mp p.1)
          (packageOf mp s c.iter) (s.blockTxs ++ SortForBlock mp (packageOf mp s c.iter))
          (fun b hb => List.mem_append.mpr (Or.inr (hperm.mem_iff.mpr hb)))
          (fun x hx => hc.sigNonneg x (hc.ancInPool p.1 hdp x hx))
        simp only [sumSigOps] at *
        omega
      · have hlkold : List.lookup p.1 s.mapModifiedTx = some e0 := by
          rw [f7 p.1, if_neg (by simpa using hdns)] at ho
          exact ho
        have hold := h.modSigGE (p.1, e0) (mem_of_lookup_eq_some hlkold)
        simp only [startEntry, ho, Option.getD]
        simp only [remSig, sumSigOps] at hold
        omega
  · show ∀ x ∈ ((SortForBlock mp (packageOf mp s c.iter)).foldl (commitOne mp) s).rest,
      x ∈ mpKeys mp
    rw [f4]
    exact h.restInPool
  · show (((SortForBlock mp (packageOf mp s c.iter)).foldl (commitOne mp) s).rest).Pairwise _
    rw [f4]
    exact h.restSorted
  · intro f sz hlast
    have : (c.pkgFees, c.pkgSize) = (f, sz) := Option.some.inj hlast
    rcases Prod.mk.injEq .. |>.mp this with ⟨h1, h2⟩
    subst h1
    subst h2
    exact ⟨hfee, hszpos⟩

/-- One loop iteration preserves the invariant, whatever its outcome. -/
theorem stepFn_inv {P : BAParams} {mp : MemPool} {s : BAState}
    (hc : Coherent mp) (h : LoopInv P mp s) :
    (∀ s', stepFn P mp s = StepOut.continue1 s' → LoopInv P mp s')
    ∧ (∀ k s', stepFn P mp s = StepOut.exitLoop k s' → LoopInv P mp s') := by
  rcases hsel : selectCandidate mp s with _ | s'' | ⟨c, s''⟩
  · constructor
    · intro s' hstep
      simp only [stepFn, hsel] at hstep
      exact absurd hstep (by simp)
    · intro k s' hstep
      simp only [stepFn, hsel] at hstep
      rcases StepOut.exitLoop.inj hstep with ⟨_, h2⟩
      exact h2 ▸ h
  · rcases selectCandidate_skip_state hsel with ⟨mi, rest', hrest, _, hs''⟩
    have hinv : LoopInv P mp s'' := by
      rw [hs'']
      exact inv_tail h hrest
    constructor
    · intro s' hstep
      simp only [stepFn, hsel] at hstep
      exact (StepOut.continue1.inj hstep) ▸ hinv
    · intro k s' hstep
      simp only [stepFn, hsel] at hstep
      exact absurd hstep (by simp)
  · have hinv'' : LoopInv P mp s'' := by
      rcases selectCandidate_pick_char hsel with ⟨k, me, _, _, hs⟩ | ⟨mi, rest', hrest, _, _, hs⟩
      · rw [hs]
        exact h
      · rw [hs]
        exact inv_tail h hrest
    obtain ⟨hiterPool, hiterNB, hGEsz, hGEsg⟩ :
        c.iter ∈ mpKeys mp ∧ c.iter ∉ s''.blockTxs ∧
          remSize mp s''.blockTxs c.iter ≤ c.pkgSize ∧
          remSig mp s''.blockTxs c.iter ≤ c.pkgSigOps := by
      rcases selectCandidate_pick_char hsel with ⟨k, me, hb, hcand, hs⟩ |
        ⟨mi, rest', hrest, hskip, hcand, hs⟩
      · subst hcand
        subst hs
        have hmem := bestModified_mem hb
        have hkk : k ∈ modKeys s''.mapModifiedTx := List.mem_map.mpr ⟨(k, me), hmem, rfl⟩
        exact ⟨hinv''.mapInPool k hkk, hinv''.mapDisjoint k hkk,
          hinv''.modSizeGE (k, me) hmem, hinv''.modSigGE (k, me) hmem⟩
      · subst hcand
        subst hs
        rcases skip_false_parts s mi hskip with ⟨_, hnb, _⟩
        have hmi : mi ∈ mpKeys mp := h.restInPool mi (by
          rw [hrest]
          exact List.mem_cons_self _ _)
        exact ⟨hmi, hnb, remSize_le_agg hc hmi s.blockTxs, remSig_le_agg hc hmi s.blockTxs⟩
    have hszpos : 0 ≤ c.pkgSize := by
      have := remSize_pos hc hiterPool s''.blockTxs
      omega
    simp only [stepFn, hsel]
    by_cases hcut : c.pkgFees < P.blockMinFeeRate * c.pkgSize
    · rw [if_pos hcut]
      constructor
      · intro s' hstep
        exact absurd hstep (by simp)
      · intro k s' hstep
        rcases StepOut.exitLoop.inj hstep with ⟨_, h2⟩
        exact h2 ▸ hinv''
    · rw [if_neg hcut]
      have hfee : P.blockMinFeeRate * c.pkgSize ≤ c.pkgFees := by omega
      by_cases htest : TestPackage P s'' c.pkgSize c.pkgSigOps = true
      · rw [if_pos htest]
        rcases (TestPackage_true_iff P s'' c.pkgSize c.pkgSigOps).mp htest with ⟨hsz, hsg⟩
        by_cases htx : TestPackageTransactions P (packageOf mp s'' c.iter) = true
        · rw [if_pos htx]
          constructor
          · intro s' hstep
            have hs' := StepOut.continue1.inj hstep
            rw [← hs']
            exact commit_step_inv hc hinv'' c hiterPool hiterNB hsz hsg hGEsz hGEsg hfee hszpos
          · intro k s' hstep
            exact absurd hstep (by simp)
        · rw [if_neg htx]
          constructor
          · intro s' hstep
            rw [← StepOut.continue1.inj hstep]
            exact inv_failBookkeep c hinv''
          · intro k s' hstep
            exact absurd hstep (by simp)
      · rw [if_neg htest]
        split
        · constructor
          · intro s' hstep
            exact absurd hstep (by simp)
          · intro k s' hstep
            rcases StepOut.exitLoop.inj hstep with ⟨_, h2⟩
            rw [← h2]
            exact inv_counter _ (inv_failBookkeep c hinv'')
        · constructor
          · intro s' hstep
            rw [← StepOut.continue1.inj hstep]
            exact inv_counter _ (inv_failBookkeep c hinv'')
          · intro k s' hstep
            exact absurd hstep (by simp)

/-- The invariant holds at every point of a fuel-indexed run. -/
theorem go_inv {P : BAParams} {mp : MemPool} (hc : Coherent mp) {s : BAState}
    (h : LoopInv P mp s) (fuel : Nat) : LoopInv P mp (addPackageTxsGo P mp fuel s).1 := by
  induction fuel generalizing s with
  | zero => exact h
  | succ n ih =>
    simp only [addPackageTxsGo]
    rcases hstep : stepFn P mp s with ⟨k, s'⟩ | s'
    · exact (stepFn_inv hc h).2 k s' hstep
    · exact ih ((stepFn_inv hc h).1 s' hstep)

/-- The invariant at loop entry. -/
theorem initState_inv (P : BAParams) (mp : MemPool) (order : List Nat)
    (hmax : 1000 < P.nBlockMaxSize) (hsigmax : 100 < P.maxBlockSigOps)
    (horder : ∀ x ∈ order, x ∈ mpKeys mp)
    (hsorted : order.Pairwise (fun a b =>
      aggFeesOf mp b * aggSizeOf mp a ≤ aggFeesOf mp a * aggSizeOf mp b)) :
    LoopInv P mp (initState order) := by
  refine ⟨hmax, hsigmax, ?_, ?_, ?_, ?_, ?_, ?_, ?_, ?_, ?_, ?_, ?_, ?_⟩ <;>
    simp [initState, modKeys]
  · exact horder
  · exact hsorted

/-! ## Claims C1, C3, C4, C6 -/

/-- Claim C1: `TestPackage` rejects exactly when the package would reach or
exceed a limit (the boundary is exclusive: equality rejects); consequently
the selection loop keeps total block size and sigop count strictly below the
configured maxima at every point of every assembly pass. -/
theorem claim_C1 (P : BAParams) (mp : MemPool) (order : List Nat)
    (hc : Coherent mp) (hmax : 1000 < P.nBlockMaxSize) (hsigmax : 100 < P.maxBlockSigOps)
    (horder : ∀ x ∈ order, x ∈ mpKeys mp)
    (hsorted : order.Pairwise (fun a b =>
      aggFeesOf mp b * aggSizeOf mp a ≤ aggFeesOf mp a * aggSizeOf mp b)) :
    (∀ s a b, TestPackage P s a b = false ↔
      (P.nBlockMaxSize ≤ s.nBlockSize + a ∨ P.maxBlockSigOps ≤ s.nBlockSigOps + b))
    ∧ (∀ fuel, (addPackageTxs P mp order fuel).1.nBlockSize < P.nBlockMaxSize
        ∧ (addPackageTxs P mp order fuel).1.nBlockSigOps < P.maxBlockSigOps) := by
  constructor
  · intro s a b
    have h := TestPackage_true_iff P s a b
    rcases hres : TestPackage P s a b with _ | _
    · rw [hres] at h
      simp only [Bool.false_eq_true, false_iff] at h
      simp only [true_iff]
      omega
    · rw [hres] at h
      simp only [true_iff] at h
      simp only [Bool.true_eq_false, false_iff]
      omega
  · intro fuel
    have hinit := initState_inv P mp order hmax hsigmax horder hsorted
    have hres : addPackageTxs P mp order fuel = addPackageTxsGo P mp fuel (initState order) :=
      rfl
    rw [hres]
    exact ⟨(go_inv hc hinit fuel).capSize, (go_inv hc hinit fuel).capSig⟩

/-- Claim C6: throughout one assembly pass the committed set and the tracker
are disjoint, and the committed list has no duplicate (every transaction is
committed at most once).  Quantifying over fuel covers every intermediate
state of the loop. -/
theorem claim_C6 (P : BAParams) (mp : MemPool) (order : List Nat)
    (hc : Coherent mp) (hmax : 1000 < P.nBlockMaxSize) (hsigmax : 100 < P.maxBlockSigOps)
    (horder : ∀ x ∈ order, x ∈ mpKeys mp)
    (hsorted : order.Pairwise (fun a b =>
      aggFeesOf mp b * aggSizeOf mp a ≤ aggFeesOf mp a * aggSizeOf mp b)) :
    ∀ fuel,
      (∀ d ∈ modKeys (addPackageTxs P mp order fuel).1.mapModifiedTx,
        d ∉ (addPackageTxs P mp order fuel).1.blockTxs)
      ∧ ((addPackageTxs P mp order fuel).1.blockTxs).Nodup := by
  intro fuel
  have hinit := initState_inv P mp order hmax hsigmax horder hsorted
  have hres : addPackageTxs P mp order fuel = addPackageTxsGo P mp fuel (initState order) := rfl
  rw [hres]
  exact ⟨(go_inv hc hinit fuel).mapDisjoint, (go_inv hc hinit fuel).blockNodup⟩

/-- Claim C4: sorting an ancestor package by ascending in-pool ancestor count
is a valid topological order (the sorted package is a permutation in which no
transaction precedes any of its ancestors), and consequently the assembled
block-in-progress is at all times ordered so that no transaction precedes any
of its in-block ancestors. -/
theorem claim_C4 (P : BAParams) (mp : MemPool) (order : List Nat)
    (hc : Coherent mp) (hmax : 1000 < P.nBlockMaxSize) (hsigmax : 100 < P.maxBlockSigOps)
    (horder : ∀ x ∈ order, x ∈ mpKeys mp)
    (hsorted : order.Pairwise (fun a b =>
      aggFeesOf mp b * aggSizeOf mp a ≤ aggFeesOf mp a * aggSizeOf mp b)) :
    (∀ pkg : List Nat, (∀ x ∈ pkg, x ∈ mpKeys mp) →
      (SortForBlock mp pkg).Perm pkg ∧
      (SortForBlock mp pkg).Pairwise (fun x y => y ∉ ancListOf mp x))
    ∧ (∀ fuel, ((addPackageTxs P mp order fuel).1.blockTxs).Pairwise
        (fun x y => y ∉ ancListOf mp x)) := by
  constructor
  · intro pkg hpool
    exact ⟨sortForBlock_perm mp pkg, sortForBlock_topo hc pkg hpool⟩
  · intro fuel
    have hinit := initState_inv P mp order hmax hsigmax horder hsorted
    have hres : addPackageTxs P mp order fuel = addPackageTxsGo P mp fuel (initState order) :=
      rfl
    rw [hres]
    exact (go_inv hc hinit fuel).topo

/-- Claim C3: in a selection step where the best tracker entry and the current
primary-index entry have exactly equal cross-multiplied ancestor fee rates,
the primary-index entry is chosen (and its iterator advances); the tracker
entry is chosen only when its rate is strictly higher. -/
theorem claim_C3 (mp : MemPool) (s : BAState) (mi : Nat) (rest' : List Nat)
    (k : Nat) (me : CTxMemPoolModifiedEntry)
    (hrest : s.rest = mi :: rest')
    (hskip : SkipMapTxEntry s mi = false)
    (hbest : bestModified s.mapModifiedTx = some (k, me)) :
    (me.nModFeesWithAncestors * aggSizeOf mp mi = aggFeesOf mp mi * me.nSizeWithAncestors →
      selectCandidate mp s = SelOut.pick (cachedCandidate mp mi) { s with rest := rest' })
    ∧ (∀ c s'', selectCandidate mp s = SelOut.pick c s'' → c.usingMod = true →
        aggFeesOf mp mi * me.nSizeWithAncestors <
          me.nModFeesWithAncestors * aggSizeOf mp mi) := by
  have hsel : selectCandidate mp s =
      (if ancestorFeeRateGT me.nModFeesWithAncestors me.nSizeWithAncestors
          (aggFeesOf mp mi) (aggSizeOf mp mi) then SelOut.pick (modCandidate k me) s
       else SelOut.pick (cachedCandidate mp mi) { s with rest := rest' }) := by
    simp only [selectCandidate, hrest]
    rw [if_neg (by simp [hskip]), hbest]
  constructor
  · intro heq
    rw [hsel, if_neg (by
      simp only [ancestorFeeRateGT, decide_eq_true_eq, not_lt]
      exact le_of_eq heq)]
  · intro c s'' hpick hmod
    rw [hsel] at hpick
    by_cases hgt : ancestorFeeRateGT me.nModFeesWithAncestors me.nSizeWithAncestors
        (aggFeesOf mp mi) (aggSizeOf mp mi) = true
    · simpa [ancestorFeeRateGT] using hgt
    · rw [if_neg hgt] at hpick
      rcases SelOut.pick.inj hpick with ⟨hc1, _⟩
      rw [← hc1] at hmod
      simp [cachedCandidate] at hmod

/-! ## Concrete pool and witnesses for the loop claims -/

/-- Concrete two-transaction pool: 1 is an ancestor of 2, both fee rate 5. -/
def mpL : MemPool :=
  [(1, ⟨100, 0, 500, 500, 0, [], [2], 100, 500, 0, 1⟩),
   (2, ⟨200, 0, 1000, 1000, 0, [1], [], 300, 1500, 0, 2⟩)]

/-- Concrete parameters: 10000-byte block, 1000 sigops, zero min fee rate. -/
def pL : BAParams := ⟨10000, 1000, 0, fun _ => true, fun _ => true⟩

/-- Coherence of the concrete pool. -/
theorem mpL_coherent : Coherent mpL := by
  constructor <;> decide

/-- Witness for claim C1 on the concrete pool: the boundary case
1000 + 9000 = 10000 rejects, and the assembled totals stay strictly below the
maxima. -/
theorem claim_C1_witness :
    TestPackage pL (initState [2, 1]) 9000 0 = false
    ∧ ((addPackageTxs pL mpL [2, 1] 5).1.nBlockSize < 10000
        ∧ (addPackageTxs pL mpL [2, 1] 5).1.nBlockSigOps < 1000) := by
  have h := claim_C1 pL mpL [2, 1] mpL_coherent (by decide) (by decide) (by decide) (by decide)
  exact ⟨(h.1 (initState [2, 1]) 9000 0).mpr (Or.inl (by decide)), h.2 5⟩

/-- Witness for claim C6 on the concrete pool after five iterations. -/
theorem claim_C6_witness :
    (∀ d ∈ modKeys (addPackageTxs pL mpL [2, 1] 5).1.mapModifiedTx,
      d ∉ (addPackageTxs pL mpL [2, 1] 5).1.blockTxs)
    ∧ ((addPackageTxs pL mpL [2, 1] 5).1.blockTxs).Nodup := by
  exact claim_C6 pL mpL [2, 1] mpL_coherent (by decide) (by decide) (by decide) (by decide) 5

/-- Witness for claim C4 on the concrete pool: the sorted package [2, 1] puts
the ancestor first, and the assembled block list is topologically ordered. -/
theorem claim_C4_witness :
    ((SortForBlock mpL [2, 1]).Perm [2, 1]
      ∧ (SortForBlock mpL [2, 1]).Pairwise (fun x y => y ∉ ancListOf mpL x))
    ∧ ((addPackageTxs pL mpL [2, 1] 5).1.blockTxs).Pairwise
        (fun x y => y ∉ ancListOf mpL x) := by
  have h := claim_C4 pL mpL [2, 1] mpL_coherent (by decide) (by decide) (by decide) (by decide)
  exact ⟨h.1 [2, 1] (by decide), h.2 5⟩

/-- Concrete pool for the claim C3 witness: mapTx entry 5 with cached
aggregates (fees 50, size 100). -/
def mpW3 : MemPool := [(5, ⟨100, 0, 50, 50, 0, [], [], 100, 50, 0, 1⟩)]

/-- Concrete state for the claim C3 witness: tracker holds entry 7 with the
same fee rate (50 / 100). -/
def sW3 : BAState :=
  { blockTxs := [], nBlockSize := 1000, nBlockSigOps := 100, nBlockTx := 0, nFees := 0,
    nSpecialTxFees := 0, mapModifiedTx := [(7, ⟨100, 50, 0⟩)], failedTx := [],
    nConsecutiveFailed := 0, rest := [5], lastAccepted := none }

/-- Witness for claim C3: at exactly equal rates the primary entry 5 is
selected, not tracker entry 7. -/
theorem claim_C3_witness :
    selectCandidate mpW3 sW3 = SelOut.pick (cachedCandidate mpW3 5) { sW3 with rest := [] } := by
  exact (claim_C3 mpW3 sW3 5 [] 7 ⟨100, 50, 0⟩ (by rfl) (by decide) (by rfl)).1 (by decide)

/-! ## Claim C2: the fee-rate cutoff -/

/-- The candidates remaining to be evaluated in state `s`: primary-index
entries still ahead of the iterator that the loop would not skip (with their
cached ancestor aggregates), together with all tracker entries (with their
modified aggregates), as (ancestor fees, ancestor size) pairs. -/
def remCandidates (mp : MemPool) (s : BAState) : List (Int × Int) :=
  (s.rest.filter (fun i => !SkipMapTxEntry s i)).map
    (fun i => (aggFeesOf mp i, aggSizeOf mp i))
  ++ s.mapModifiedTx.map (fun q => (q.2.nModFeesWithAncestors, q.2.nSizeWithAncestors))

/-- Cached ancestor sizes are positive in a coherent pool. -/
theorem aggSize_pos {mp : MemPool} (hc : Coherent mp) {d : Nat} (hd : d ∈ mpKeys mp) :
    (0 : Int) < aggSizeOf mp d := by
  have h1 := remSize_pos hc hd []
  have h2 := remSize_le_agg hc hd []
  omega

/-- Transitivity of the cross-multiplied fee-rate order on nonnegative sizes
with a positive middle size. -/
theorem rateLE_trans {f1 s1 f2 s2 f3 s3 : Int} (hs1 : 0 ≤ s1) (hs2 : 0 < s2) (hs3 : 0 ≤ s3)
    (h12 : f1 * s2 ≤ f2 * s1) (h23 : f2 * s3 ≤ f3 * s2) : f1 * s3 ≤ f3 * s1 := by
  nlinarith [mul_le_mul_of_nonneg_right h12 hs3, mul_le_mul_of_nonneg_right h23 hs1]

/-- Rate-bound chain: a candidate at most as good as the cutoff-firing
package, whose fees fall below `R` times its size, is rate-bounded by any
package whose fees reached `R` times its size. -/
theorem rate_chain {f s R fL sL fc sc : Int} (hs : 0 < s) (hsc : 0 < sc) (hsL : 0 ≤ sL)
    (h1 : fc * s ≤ f * sc) (h2 : f < R * s) (h3 : R * sL ≤ fL) : fc * sL ≤ fL * sc := by
  nlinarith [mul_le_mul_of_nonneg_right h1 hsL,
    mul_le_mul_of_nonneg_right (le_of_lt h2) (mul_nonneg (le_of_lt hsc) hsL),
    mul_le_mul_of_nonneg_right h3 (le_of_lt hsc)]

/-- Full inversion of a `pick` outcome of candidate selection, keeping the
comparator verdict. -/
theorem selectCandidate_pick_inv {mp : MemPool} {s s' : BAState} {c : Candidate}
    (h : selectCandidate mp s = SelOut.pick c s') :
    (s.rest = [] ∧ ∃ k me, bestModified s.mapModifiedTx = some (k, me) ∧
      c = modCandidate k me ∧ s' = s)
    ∨ (∃ mi rest', s.rest = mi :: rest' ∧ SkipMapTxEntry s mi = false ∧
        ((∃ k me, bestModified s.mapModifiedTx = some (k, me) ∧
            ancestorFeeRateGT me.nModFeesWithAncestors me.nSizeWithAncestors
              (aggFeesOf mp mi) (aggSizeOf mp mi) = true ∧
            c = modCandidate k me ∧ s' = s)
         ∨ (c = cachedCandidate mp mi ∧ s' = { s with rest := rest' } ∧
            ∀ k me, bestModified s.mapModifiedTx = some (k, me) →
              ancestorFeeRateGT me.nModFeesWithAncestors me.nSizeWithAncestors
                (aggFeesOf mp mi) (aggSizeOf mp mi) = false))) := by
  rcases hr : s.rest with _ | ⟨mi, rest'⟩
  · simp only [selectCandidate, hr] at h
    rcases hb : bestModified s.mapModifiedTx with _ | ⟨k, me⟩ <;> rw [hb] at h <;>
      simp only [] at h
    · simp at h
    · rcases SelOut.pick.inj h with ⟨hc1, hc2⟩
      exact Or.inl ⟨rfl, k, me, rfl, hc1.symm, hc2.symm⟩
  · simp only [selectCandidate, hr] at h
    by_cases hskip : SkipMapTxEntry s mi = true
    · rw [if_pos hskip] at h
      simp at h
    · rw [if_neg hskip] at h
      have hskipf : SkipMapTxEntry s mi = false := by
        rcases hx : SkipMapTxEntry s mi with _ | _
        · rfl
        · exact absurd hx hskip
      rcases hb : bestModified s.mapModifiedTx with _ | ⟨k, me⟩ <;> rw [hb] at h <;>
        simp only [] at h
      · rcases SelOut.pick.inj h with ⟨hc1, hc2⟩
        refine Or.inr ⟨mi, rest', rfl, hskipf, Or.inr ⟨hc1.symm, hc2.symm, ?_⟩⟩
        intro k2 me2 hkme
        exact Option.noConfusion hkme
      · rcases hgt : ancestorFeeRateGT me.nModFeesWithAncestors me.nSizeWithAncestors
            (aggFeesOf mp mi) (aggSizeOf mp mi) with _ | _
        · rw [if_neg (by simp [hgt])] at h
          rcases SelOut.pick.inj h with ⟨hc1, hc2⟩
          refine Or.inr ⟨mi, rest', rfl, hskipf, Or.inr ⟨hc1.symm, hc2.symm, ?_⟩⟩
          intro k2 me2 hkme
          have hme : me = me2 := congrArg (fun p => p.2) (Option.some.inj hkme)
          rw [← hme]
          exact hgt
        · rw [if_pos (by simp [hgt])] at h
          rcases SelOut.pick.inj h with ⟨hc1, hc2⟩
          exact Or.inr ⟨mi, rest', rfl, hskipf, Or.inl ⟨k, me, rfl, hgt, hc1.symm, hc2.symm⟩⟩

/-- The fee-cutoff exit happens exactly at a `pick` whose package fees fall
below `blockMinFeeRate` times its size. -/
theorem stepFn_cutoff_inv {P : BAParams} {mp : MemPool} {s s' : BAState}
    (hstep : stepFn P mp s = StepOut.exitLoop ExitKind.feeCutoff s') :
    ∃ c, selectCandidate mp s = SelOut.pick c s' ∧
      c.pkgFees < P.blockMinFeeRate * c.pkgSize := by
  rcases hsel : selectCandidate mp s with _ | s'' | ⟨c, s''⟩ <;>
    simp only [stepFn, hsel] at hstep
  · rcases StepOut.exitLoop.inj hstep with ⟨hk, _⟩
    exact ExitKind.noConfusion hk
  · exact absurd hstep (by simp)
  · by_cases hcut : c.pkgFees < P.blockMinFeeRate * c.pkgSize
    · rw [if_pos hcut] at hstep
      rcases StepOut.exitLoop.inj hstep with ⟨_, h2⟩
      subst h2
      exact ⟨c, rfl, hcut⟩
    · rw [if_neg hcut] at hstep
      by_cases htest : TestPackage P s'' c.pkgSize c.pkgSigOps = true
      · rw [if_pos htest] at hstep
        by_cases htx : TestPackageTransactions P (packageOf mp s'' c.iter) = true
        · rw [if_pos htx] at hstep
          exact absurd hstep (by simp)
        · rw [if_neg htx] at hstep
          exact absurd hstep (by simp)
      · rw [if_neg htest] at hstep
        split at hstep
        · rcases StepOut.exitLoop.inj hstep with ⟨hk, _⟩
          exact ExitKind.noConfusion hk
        · exact absurd hstep (by simp)

/-- If the fee cutoff fires at one step from an invariant state, every
remaining candidate of the returned state is rate-bounded by the last
accepted package. -/
theorem cutoff_step_bound {P : BAParams} {mp : MemPool} {s s' : BAState}
    (hc : Coherent mp) (hinv : LoopInv P mp s)
    (hstep : stepFn P mp s = StepOut.exitLoop ExitKind.feeCutoff s')
    (fL sL : Int) (hlast : s'.lastAccepted = some (fL, sL)) :
    ∀ cand ∈ remCandidates mp s', cand.1 * sL ≤ fL * cand.2 := by
  obtain ⟨c, hpick, hcut⟩ := stepFn_cutoff_inv hstep
  have hpos := inv_modSize_pos hc hinv
  rcases selectCandidate_pick_inv hpick with
    ⟨hrnil, k, me, hb, hcand, hs⟩ |
    ⟨mi, rest', hrest, hskip, ⟨k, me, hb, hgt, hcand, hs⟩ | ⟨hcand, hs, hnogt⟩⟩
  · subst hs
    obtain ⟨hRf, hsL⟩ := hinv.lastOk fL sL hlast
    have hmem := bestModified_mem hb
    have hmax := bestModified_maximal hpos hb
    have hmepos : (0 : Int) < me.nSizeWithAncestors := hpos (k, me) hmem
    rw [hcand] at hcut
    simp only [modCandidate] at hcut
    intro cand hmemc
    simp only [remCandidates, List.mem_append, List.mem_map, List.mem_filter] at hmemc
    rcases hmemc with ⟨i, ⟨hi, _⟩, heq⟩ | ⟨q, hq, heq⟩
    · rw [hrnil] at hi
      simp at hi
    · subst heq
      exact rate_chain hmepos (hpos q hq) hsL (hmax q hq) hcut hRf
  · subst hs
    obtain ⟨hRf, hsL⟩ := hinv.lastOk fL sL hlast
    have hmem := bestModified_mem hb
    have hmax := bestModified_maximal hpos hb
    have hmepos : (0 : Int) < me.nSizeWithAncestors := hpos (k, me) hmem
    rw [hcand] at hcut
    simp only [modCandidate] at hcut
    have hmip : mi ∈ mpKeys mp := hinv.restInPool mi (by
      rw [hrest]
      exact List.mem_cons_self _ _)
    have hmipos : (0 : Int) < aggSizeOf mp mi := aggSize_pos hc hmip
    have hgt2 : aggFeesOf mp mi * me.nSizeWithAncestors <
        me.nModFeesWithAncestors * aggSizeOf mp mi := by
      simpa [ancestorFeeRateGT] using hgt
    intro cand hmemc
    simp only [remCandidates, List.mem_append, List.mem_map, List.mem_filter] at hmemc
    rcases hmemc with ⟨i, ⟨hi, _⟩, heq⟩ | ⟨q, hq, heq⟩
    · subst heq
      have hipos : (0 : Int) < aggSizeOf mp i := aggSize_pos hc (hinv.restInPool i hi)
      have hbound : aggFeesOf mp i * aggSizeOf mp mi ≤ aggFeesOf mp mi * aggSizeOf mp i := by
        rw [hrest] at hi
        rcases List.mem_cons.mp hi with rfl | hi2
        · exact le_refl _
        · have hp := hinv.restSorted
          rw [hrest] at hp
          exact (List.pairwise_cons.mp hp).1 i hi2
      have h2 : aggFeesOf mp i * me.nSizeWithAncestors ≤
          me.nModFeesWithAncestors * aggSizeOf mp i :=
        rateLE_trans (le_of_lt hipos) hmipos (le_of_lt hmepos) hbound (le_of_lt hgt2)
      exact rate_chain hmepos hipos hsL h2 hcut hRf
    · subst heq
      exact rate_chain hmepos (hpos q hq) hsL (hmax q hq) hcut hRf
  · subst hs
    obtain ⟨hRf, hsL⟩ := hinv.lastOk fL sL hlast
    rw [hcand] at hcut
    simp only [cachedCandidate] at hcut
    have hmip : mi ∈ mpKeys mp := hinv.restInPool mi (by
      rw [hrest]
      exact List.mem_cons_self _ _)
    have hmipos : (0 : Int) < aggSizeOf mp mi := aggSize_pos hc hmip
    intro cand hmemc
    simp only [remCandidates, List.mem_append, List.mem_map, List.mem_filter] at hmemc
    rcases hmemc with ⟨i, ⟨hi, _⟩, heq⟩ | ⟨q, hq, heq⟩
    · subst heq
      have hi2 : i ∈ s.rest := by
        rw [hrest]
        exact List.mem_cons_of_mem _ hi
      have hipos : (0 : Int) < aggSizeOf mp i := aggSize_pos hc (hinv.restInPool i hi2)
      have hbound : aggFeesOf mp i * aggSizeOf mp mi ≤ aggFeesOf mp mi * aggSizeOf mp i := by
        have hp := hinv.restSorted
        rw [hrest] at hp
        exact (List.pairwise_cons.mp hp).1 i hi
      exact rate_chain hmipos hipos hsL hbound hcut hRf
    · subst heq
      rcases hbm : bestModified s.mapModifiedTx with _ | ⟨k, me⟩
      · rw [(bestModified_none_iff _).mp hbm] at hq
        simp at hq
      · have hmax := bestModified_maximal hpos hbm
        have hmem := bestModified_mem hbm
        have hmepos : (0 : Int) < me.nSizeWithAncestors := hpos (k, me) hmem
        have hng : me.nModFeesWithAncestors * aggSizeOf mp mi ≤
            aggFeesOf mp mi * me.nSizeWithAncestors := by
          have hh := hnogt k me hbm
          simpa [ancestorFeeRateGT] using hh
        have h2 : q.2.nModFeesWithAncestors * aggSizeOf mp mi ≤
            aggFeesOf mp mi * q.2.nSizeWithAncestors :=
          rateLE_trans (le_of_lt (hpos q hq)) hmepos (le_of_lt hmipos) (hmax q hq) hng
        exact rate_chain hmipos (hpos q hq) hsL h2 hcut hRf

/-- At any fuel, a run from an invariant state that exits via the fee cutoff
leaves only rate-bounded candidates. -/
theorem go_cutoff_bound {P : BAParams} {mp : MemPool} (hc : Coherent mp) :
    ∀ fuel (s s' : BAState), LoopInv P mp s →
      addPackageTxsGo P mp fuel s = (s', ExitKind.feeCutoff) →
      ∀ fL sL, s'.lastAccepted = some (fL, sL) →
      ∀ cand ∈ remCandidates mp s', cand.1 * sL ≤ fL * cand.2 := by
  intro fuel
  induction fuel with
  | zero =>
    intro s s' hinv hgo
    simp only [addPackageTxsGo] at hgo
    have hk : ExitKind.fuelOut = ExitKind.feeCutoff := congrArg Prod.snd hgo
    exact ExitKind.noConfusion hk
  | succ n ih =>
    intro s s' hinv hgo
    simp only [addPackageTxsGo] at hgo
    rcases hstep : stepFn P mp s with ⟨k, s2⟩ | s2 <;> rw [hstep] at hgo <;>
      simp only [] at hgo
    · have hs2 : s2 = s' := congrArg Prod.fst hgo
      have hk : k = ExitKind.feeCutoff := congrArg Prod.snd hgo
      subst hs2
      subst hk
      exact cutoff_step_bound hc hinv hstep
    · exact ih s2 s' ((stepFn_inv hc hinv).1 s2 hstep) hgo

/-- Claim C2: the fee-rate test is a hard early exit — whenever the selected
package's ancestor-aggregate fee is below `blockMinFeeRate` times its size,
the very next outcome of the loop body is termination of the whole loop (not
a per-candidate skip) — and when an assembly pass exits this way, every
remaining unselected candidate's ancestor fee-rate is at most the last
accepted package's fee-rate (compared cross-multiplied). -/
theorem claim_C2 (P : BAParams) (mp : MemPool) (order : List Nat)
    (hc : Coherent mp) (hmax : 1000 < P.nBlockMaxSize) (hsigmax : 100 < P.maxBlockSigOps)
    (horder : ∀ x ∈ order, x ∈ mpKeys mp)
    (hsorted : order.Pairwise (fun a b =>
      aggFeesOf mp b * aggSizeOf mp a ≤ aggFeesOf mp a * aggSizeOf mp b)) :
    (∀ s c s2, selectCandidate mp s = SelOut.pick c s2 →
        c.pkgFees < P.blockMinFeeRate * c.pkgSize →
        stepFn P mp s = StepOut.exitLoop ExitKind.feeCutoff s2)
    ∧ (∀ fuel s' fL sL, addPackageTxs P mp order fuel = (s', ExitKind.feeCutoff) →
        s'.lastAccepted = some (fL, sL) →
        ∀ cand ∈ remCandidates mp s', cand.1 * sL ≤ fL * cand.2) := by
  constructor
  · intro s c s2 hpick hcut
    simp only [stepFn, hpick]
    rw [if_pos hcut]
  · intro fuel s' fL sL hrun hlast
    have hinit := initState_inv P mp order hmax hsigmax horder hsorted
    have hres : addPackageTxs P mp order fuel = addPackageTxsGo P mp fuel (initState order) :=
      rfl
    rw [hres] at hrun
    exact go_cutoff_bound hc fuel (initState order) s' hinit hrun fL sL hlast

/-- Concrete pool for the claim C2 witness: three independent transactions of
size 100 with fees 5000, 100 and 50 (rates 50, 1 and 0.5). -/
def mpC2 : MemPool :=
  [(1, ⟨100, 0, 5000, 5000, 0, [], [], 100, 5000, 0, 1⟩),
   (2, ⟨100, 0, 100, 100, 0, [], [], 100, 100, 0, 1⟩),
   (3, ⟨100, 0, 50, 50, 0, [], [], 100, 50, 0, 1⟩)]

/-- Parameters with minimum fee rate 10 for the claim C2 witness. -/
def pW2 : BAParams := ⟨10000, 1000, 10, fun _ => true, fun _ => true⟩

/-- Coherence of the claim C2 witness pool. -/
theorem mpC2_coherent : Coherent mpC2 := by
  constructor <;> decide

/-- Witness for claim C2: transaction 2 (rate 1 < 10) makes the next loop
outcome a hard exit, and in the run over [1, 2, 3] — where 1 (rate 50) is
accepted and 2 fires the cutoff — the remaining candidate 3 with aggregates
(50, 100) is rate-bounded by the accepted (5000, 100). -/
theorem claim_C2_witness :
    stepFn pW2 mpC2 (initState [2]) =
      StepOut.exitLoop ExitKind.feeCutoff { initState [2] with rest := [] }
    ∧ (50 : Int) * 100 ≤ 5000 * 100 := by
  have h := claim_C2 pW2 mpC2 [1, 2, 3] mpC2_coherent (by decide) (by decide) (by decide)
    (by decide)
  refine ⟨h.1 (initState [2]) (cachedCandidate mpC2 2) { initState [2] with rest := [] }
    (by rfl) (by decide), ?_⟩
  exact h.2 5 (addPackageTxs pW2 mpC2 [1, 2, 3] 5).1 5000 100 (by rfl) (by rfl)
    (50, 100) (by decide)

end FortuneBlock
